import Mathlib

/-!
Verification development for the muesli diarise-transcribe backend.

This file gives a shallow embedding, in Lean 4, of the pure core of
`src/diarise_transcribe/merge.py` and `src/diarise_transcribe/muesli_backend.py`
(the speaker-assignment/merge algorithms, the PCM aligner, and the incremental
transcript emitter), together with theorems settling the stated properties.

Modelling conventions:
* Python `float` time values are modelled as `ℚ` (exact arithmetic; the
  algorithms only use `+`, `-`, `max`, `min`, comparisons, and one rounding).
* Python `str` is modelled as Lean `String`; character-level operations of the
  punctuation-aware join work on `List Char` (= `String.data`).
* Byte buffers are modelled as `List ℕ` (one entry per byte; a zero byte is `0`).
* Python `dict` / `set` state of the emitter is modelled as functions
  `String → _` (with `Function.update`) and a duplicate-free `List String`.
-/

namespace Muesli

/-- Model of `asr.Word`: a single word with timestamp (text, start, end in seconds). -/
structure Word where
  text : String
  start : ℚ
  «end» : ℚ
deriving DecidableEq, Repr

/-- Model of `diarisation.DiarSegment`: a speaker segment (start, end, speaker label). -/
structure DiarSegment where
  start : ℚ
  «end» : ℚ
  speaker : String
deriving DecidableEq, Repr

/-- Model of `merge.LabelledWord`: a word with a speaker label. -/
structure LabelledWord where
  text : String
  start : ℚ
  «end» : ℚ
  speaker : String
deriving DecidableEq, Repr

instance : Inhabited LabelledWord := ⟨⟨"", 0, 0, ""⟩⟩

/-- Model of `merge.SpeakerTurn`: a continuous turn by one speaker. -/
structure SpeakerTurn where
  speaker : String
  start : ℚ
  «end» : ℚ
  text : String
  words : List LabelledWord
deriving DecidableEq, Repr

/-- Model of `merge.MergedTranscript`: turns, flat word list, original segments. -/
structure MergedTranscript where
  turns : List SpeakerTurn
  words : List LabelledWord
  segments : List DiarSegment
deriving DecidableEq, Repr

/-! ## Speaker assignment (`merge.assign_speakers_to_words`, lines 43–108)

The per-word inner loop over segments tracks four pieces of running state:
`best_speaker`, `best_overlap`, `nearest_speaker`, `min_distance`.
`min_distance` starts at `float("inf")`, modelled as `Option ℚ` with
`none` = infinity; `nearest_speaker` starts at `None`. -/

/-- Overlap of a word with a segment:
`max(0, min(word.end, seg.end) - max(word.start, seg.start))`. -/
def overlapWith (w : Word) (seg : DiarSegment) : ℚ :=
  max 0 (min w.«end» seg.«end» - max w.start seg.start)

/-- Distance from the word midpoint to a segment interval
(0 if the midpoint lies inside the interval). -/
def distWith (w : Word) (seg : DiarSegment) : ℚ :=
  let word_mid := (w.start + w.«end») / 2
  if word_mid < seg.start then seg.start - word_mid
  else if word_mid > seg.«end» then word_mid - seg.«end»
  else 0

/-- Running state of the per-word segment scan. -/
structure ScanState where
  best_speaker : String
  best_overlap : ℚ
  nearest_speaker : Option String
  min_distance : Option ℚ
deriving DecidableEq, Repr

/-- One iteration of the `for seg in segments` loop body. -/
def scanStep (w : Word) (st : ScanState) (seg : DiarSegment) : ScanState :=
  let overlap := overlapWith w seg
  let st1 : ScanState :=
    if overlap > st.best_overlap then
      { st with best_speaker := seg.speaker, best_overlap := overlap }
    else st
  let dist := distWith w seg
  -- `dist < min_distance` where `min_distance` starts as +infinity
  let better : Bool :=
    match st1.min_distance with
    | none => true
    | some d => dist < d
  if better then
    { st1 with nearest_speaker := some seg.speaker, min_distance := some dist }
  else st1

/-- The whole segment scan for one word. -/
def scanSegs (w : Word) (segments : List DiarSegment) : ScanState :=
  segments.foldl (scanStep w) ⟨"UNKNOWN", 0, none, none⟩

/-- The speaker assigned to one word before interpolation.  The Python guard
`if best_overlap == 0 and nearest_speaker and min_distance <= tolerance` uses
truthiness of `nearest_speaker`: both `None` and the empty string are falsy. -/
def labelSpeaker (w : Word) (segments : List DiarSegment) (tolerance : ℚ) : String :=
  let st := scanSegs w segments
  match st.nearest_speaker, st.min_distance with
  | some ns, some d =>
      if st.best_overlap = 0 ∧ ns ≠ "" ∧ d ≤ tolerance then ns else st.best_speaker
  | _, _ => st.best_speaker

/-- The best-overlap components of the segment scan, in isolation: running
`(best_speaker, best_overlap)` under the strict-improvement rule. -/
def bestGo (w : Word) : String × ℚ → List DiarSegment → String × ℚ
  | acc, [] => acc
  | (bs, bo), seg :: rest =>
    if overlapWith w seg > bo then bestGo w (seg.speaker, overlapWith w seg) rest
    else bestGo w (bs, bo) rest

/-- Does a distance `d` beat the running minimum `md` (`none` = infinity)?
This is the `dist < min_distance` test of the scan. -/
def distImproves (md : Option ℚ) (d : ℚ) : Bool :=
  match md with
  | none => true
  | some d0 => decide (d < d0)

/-- The nearest-segment components of the segment scan, in isolation: running
`(nearest_speaker, min_distance)` (with `none` = infinity) under the
strict-improvement rule. -/
def nearestGo (w : Word) : Option String × Option ℚ → List DiarSegment → Option String × Option ℚ
  | acc, [] => acc
  | (ns, md), seg :: rest =>
    if distImproves md (distWith w seg) = true then
      nearestGo w (some seg.speaker, some (distWith w seg)) rest
    else nearestGo w (ns, md) rest

/-- Predicate: `seg` is the earliest-listed segment attaining the maximum overlap with
`w`, and that overlap is positive. -/
def isFirstBestOverlap (w : Word) (segs : List DiarSegment) (seg : DiarSegment) : Prop :=
  segs.find? (fun s => decide (overlapWith w s = overlapWith w seg)) = some seg
  ∧ (∀ t ∈ segs, overlapWith w t ≤ overlapWith w seg)
  ∧ 0 < overlapWith w seg

/-- Predicate: `seg` is the earliest-listed segment attaining the minimum midpoint
distance to `w`. -/
def isFirstNearest (w : Word) (segs : List DiarSegment) (seg : DiarSegment) : Prop :=
  segs.find? (fun s => decide (distWith w s = distWith w seg)) = some seg
  ∧ ∀ t ∈ segs, distWith w seg ≤ distWith w t

/-- Sort key comparison used by `sorted(words, key=lambda w: w.start)`
(stable ascending sort on `start`). -/
def wordLe (a b : Word) : Bool := a.start ≤ b.start

/-! ## UNKNOWN-speaker interpolation (`merge._interpolate_unknown_speakers`,
lines 111–158).

The Python function mutates a copy `result` of the input list with a forward
index loop and a backward index loop; we model each loop as a recursion over
the index that rebuilds the list with `List.set`. -/

/-- The look-ahead loop `for j in range(j0, stop): if result[j].speaker !=
"UNKNOWN": next_known = result[j].speaker; break` (callers pass
`stop = min(i + 10, len(result))`, so `j < stop` implies `j` is in range). -/
def nextKnownBetween (res : List LabelledWord) (j stop : ℕ) : Option String :=
  if _h : j < stop then
    match res[j]? with
    | some w => if w.speaker ≠ "UNKNOWN" then some w.speaker else nextKnownBetween res (j + 1) stop
    | none => none
  else none
termination_by stop - j

/-- Forward pass body: from index `i` upward, tracking `last_known`. -/
def fwdGo (res : List LabelledWord) (i : ℕ) (last_known : Option String) : List LabelledWord :=
  if h : i < res.length then
    let word := res.get ⟨i, h⟩
    if word.speaker ≠ "UNKNOWN" then
      fwdGo res (i + 1) (some word.speaker)
    else
      match last_known with
      | none => fwdGo res (i + 1) none
      | some lk =>
        let next_known := nextKnownBetween res (i + 1) (min (i + 10) res.length)
        if next_known = none ∨ next_known = some lk then
          fwdGo (res.set i ⟨word.text, word.start, word.«end», lk⟩) (i + 1) (some lk)
        else
          fwdGo res (i + 1) (some lk)
  else res
termination_by res.length - i
decreasing_by
  all_goals first
  | (simp only [List.length_set]; omega)
  | omega

/-- Backward pass body: `i` is one past the index being processed, so the loop
runs over indices `i-1, i-2, …, 0`, tracking `next_known`. -/
def bwdGo (res : List LabelledWord) (i : ℕ) (next_known : Option String) : List LabelledWord :=
  match i with
  | 0 => res
  | j + 1 =>
    if h : j < res.length then
      let word := res.get ⟨j, h⟩
      if word.speaker ≠ "UNKNOWN" then
        bwdGo res j (some word.speaker)
      else
        match next_known with
        | none => bwdGo res j none
        | some nk => bwdGo (res.set j ⟨word.text, word.start, word.«end», nk⟩) j (some nk)
    else bwdGo res j next_known

/-- The value of the forward pass's `last_known` variable when it reaches
index `i`: the speaker of the last index `j < i` whose (original) speaker is
known. -/
def lastKnownBefore (ws : List LabelledWord) : ℕ → Option String
  | 0 => none
  | j + 1 =>
    match ws[j]? with
    | some w => if w.speaker ≠ "UNKNOWN" then some w.speaker else lastKnownBefore ws j
    | none => lastKnownBefore ws j

/-- Closed form of what the forward pass does to the word at index `i`
(it reads only original values: earlier indices through `last_known`, later
indices through the look-ahead). -/
def fwdWord (ws : List LabelledWord) (i : ℕ) (w : LabelledWord) : LabelledWord :=
  if w.speaker ≠ "UNKNOWN" then w
  else
    match lastKnownBefore ws i with
    | none => w
    | some lk =>
      let next_known := nextKnownBetween ws (i + 1) (min (i + 10) ws.length)
      if next_known = none ∨ next_known = some lk then ⟨w.text, w.start, w.«end», lk⟩
      else w

/-- Model of `merge._interpolate_unknown_speakers`: forward pass then backward pass
(the `if not words: return words` guard is absorbed: both passes are the
identity on `[]`). -/
def interpolate_unknown_speakers (words : List LabelledWord) : List LabelledWord :=
  bwdGo (fwdGo words 0 none) (fwdGo words 0 none).length none

/-- Model of `merge.assign_speakers_to_words` (lines 43–108): stable-sort by `start`,
filter out words with `end ≤ start`, label each word by the segment scan,
then interpolate UNKNOWN speakers. -/
def assign_speakers_to_words (words : List Word) (segments : List DiarSegment)
    (tolerance : ℚ) : List LabelledWord :=
  let sorted_words := (words.mergeSort wordLe).filter (fun w => w.«end» > w.start)
  let labelled := sorted_words.map (fun w =>
    LabelledWord.mk w.text w.start w.«end» (labelSpeaker w segments tolerance))
  interpolate_unknown_speakers labelled

/-! ## Punctuation-aware join (`merge._join_words_smart`, lines 161–192).

Character-level operations work on `List Char`.  Python's `text in s`
substring test is `List.IsInfix` on the character lists; `str.strip()` strips
ASCII whitespace (Unicode whitespace beyond ASCII is out of scope here). -/

/-- Characters stripped by Python `str.strip()` (ASCII whitespace). -/
def isPySpace (c : Char) : Bool :=
  c = ' ' ∨ c = '\t' ∨ c = '\n' ∨ c = '\x0d' ∨ c = '\x0b' ∨ c = '\x0c'

/-- Python `str.strip()`: drop leading and trailing whitespace. -/
def pyStrip (l : List Char) : List Char :=
  ((l.dropWhile isPySpace).reverse.dropWhile isPySpace).reverse

/-- Does the character list contain two consecutive spaces
(Python `"  " in result`)? -/
def hasDoubleSpace : List Char → Bool
  | [] => false
  | [_] => false
  | c :: c2 :: rest => (decide (c = ' ' ∧ c2 = ' ')) || hasDoubleSpace (c2 :: rest)

/-- One round of Python `result.replace("  ", " ")`: leftmost non-overlapping
occurrences, scanning resumes after each replacement. -/
def replaceDouble : List Char → List Char
  | [] => []
  | [c] => [c]
  | c :: c2 :: rest =>
    if c = ' ' ∧ c2 = ' ' then ' ' :: replaceDouble rest
    else c :: replaceDouble (c2 :: rest)

/-- Termination helper for the replace-while loop: one replacement round
never lengthens the list. -/
def replaceDouble_length_le : ∀ l : List Char, (replaceDouble l).length ≤ l.length := by
  intro l
  induction l using replaceDouble.induct with
  | case1 => simp [replaceDouble]
  | case2 c => simp [replaceDouble]
  | case3 c c2 rest hc ih =>
    simp only [replaceDouble, if_pos hc]
    simp only [List.length_cons] at *
    omega
  | case4 c c2 rest hc ih =>
    simp only [replaceDouble, if_neg hc]
    simp only [List.length_cons] at *
    omega

/-- Termination helper: when a double space is present, one replacement round
strictly shortens the list. -/
def replaceDouble_length_lt :
    ∀ l : List Char, hasDoubleSpace l = true → (replaceDouble l).length < l.length := by
  intro l
  induction l using replaceDouble.induct with
  | case1 => simp [hasDoubleSpace]
  | case2 c => simp [hasDoubleSpace]
  | case3 c c2 rest hc ih =>
    intro _
    simp only [replaceDouble, if_pos hc]
    have := replaceDouble_length_le rest
    simp only [List.length_cons] at *
    omega
  | case4 c c2 rest hc ih =>
    intro hd
    have hd' : hasDoubleSpace (c2 :: rest) = true := by
      cases rest with
      | nil =>
        simp only [hasDoubleSpace, Bool.or_false, decide_eq_true_eq] at hd
        exact absurd hd hc
      | cons c3 rest3 =>
        simp only [hasDoubleSpace, Bool.or_eq_true, decide_eq_true_eq] at hd ⊢
        tauto
    simp only [replaceDouble, if_neg hc]
    have := ih hd'
    simp only [List.length_cons] at *
    omega

/-- The loop `while "  " in result: result = result.replace("  ", " ")`. -/
def collapseSpaces (l : List Char) : List Char :=
  if hasDoubleSpace l then collapseSpaces (replaceDouble l) else l
termination_by l.length
decreasing_by
  exact Muesli.replaceDouble_length_lt l (by assumption)

/-- The closing-punctuation string `".,!?;:)]}\"'"` as a character list. -/
def closingChars : List Char := ['.', ',', '!', '?', ';', ':', ')', ']', '}', '"', '\x27']

/-- The opening-bracket string `"([{\"'"` as a character list. -/
def openingChars : List Char := ['(', '[', '{', '"', '\x27']

/-- The part-accumulation loop of `_join_words_smart`: builds the list of
string pieces later joined by `"".join(parts)`. -/
def joinParts (words : List LabelledWord) : List (List Char) :=
  words.foldl (fun parts w =>
    let text := w.text.data
    if text = [] then parts
    else if parts ≠ [] ∧ text <:+: closingChars then parts ++ [text]
    else if text <:+: openingChars ∧ parts ≠ [] then parts ++ [' ' :: text]
    else if parts ≠ [] then parts ++ [' ' :: text]
    else parts ++ [text]) []

/-- Model of `merge._join_words_smart`: join the pieces, collapse double spaces,
strip. -/
def join_words_smart (words : List LabelledWord) : String :=
  ⟨pyStrip (collapseSpaces (joinParts words).flatten)⟩

/-! ## Turn grouping (`merge.words_to_turns`, lines 195–255).

`current_words` is always non-empty in the Python loop; we carry it as a
head element plus the tail, appended in order. -/

/-- Build the `SpeakerTurn` flushed from `current_words = h :: t`. -/
def mkTurn (speaker : String) (h : LabelledWord) (t : List LabelledWord) : SpeakerTurn :=
  { speaker := speaker
    start := h.start
    «end» := ((h :: t).getLast (by simp)).«end»
    text := join_words_smart (h :: t)
    words := h :: t }

/-- The `for word in words[1:]` loop of `words_to_turns`. -/
def turnsGo (gap_threshold max_turn_duration : ℚ) (current_speaker : String)
    (cur_head : LabelledWord) (cur_tail : List LabelledWord) :
    List LabelledWord → List SpeakerTurn
  | [] => [mkTurn current_speaker cur_head cur_tail]
  | word :: rest =>
    let gap := word.start - ((cur_head :: cur_tail).getLast (by simp)).«end»
    let speaker_change := word.speaker ≠ current_speaker
    let turn_duration := word.«end» - cur_head.start
    if speaker_change ∨ gap > gap_threshold ∨ turn_duration > max_turn_duration then
      mkTurn current_speaker cur_head cur_tail ::
        turnsGo gap_threshold max_turn_duration word.speaker word [] rest
    else
      turnsGo gap_threshold max_turn_duration current_speaker cur_head (cur_tail ++ [word]) rest

/-- Model of `merge.words_to_turns`: group consecutive words into speaker turns. -/
def words_to_turns (words : List LabelledWord)
    (gap_threshold : ℚ := 8/10) (max_turn_duration : ℚ := 60) : List SpeakerTurn :=
  match words with
  | [] => []
  | w0 :: rest => turnsGo gap_threshold max_turn_duration w0.speaker w0 [] rest

/-! ## PCM aligner (`muesli_backend.write_aligned_audio`, lines 113–152).

A `StreamWriter` holds the two sinks (the WAV container and the raw `.pcm`
file) as byte lists, plus `last_sample_index` and `bytes_written`.
`BYTES_PER_SAMPLE = 2`. -/

/-- Constant `muesli_backend.BYTES_PER_SAMPLE` (int16). -/
def BYTES_PER_SAMPLE : ℕ := 2

/-- Model of `muesli_backend.StreamWriter`: the two sinks are modelled by the byte
sequences written to them so far. -/
structure StreamWriter where
  wavFrames : List ℕ
  pcmFile : List ℕ
  last_sample_index : ℕ
  bytes_written : ℕ
deriving DecidableEq, Repr

/-- A freshly opened stream writer (`open_stream_writer`): empty sinks,
`last_sample_index = 0`, `bytes_written = 0`. -/
def freshWriter : StreamWriter := ⟨[], [], 0, 0⟩

/-- Python `int(round(x))` for a rational `x`: round-half-to-even, as Python's
`round` on floats ties to even (other values round to the nearest integer). -/
def pyRound (q : ℚ) : ℤ :=
  if Int.fract q = 1/2 then (if Even ⌊q⌋ then ⌊q⌋ else ⌊q⌋ + 1) else round q

/-- Model of `muesli_backend.write_aligned_audio`: truncate the payload to a
whole-frame multiple, map `pts_us` to a start sample, insert silence for a
gap or drop the overlapping prefix, then append to both sinks. -/
def write_aligned_audio (writer : StreamWriter) (payload : List ℕ) (pts_us : ℤ)
    (sample_rate channels : ℕ) : StreamWriter :=
  if payload = [] then writer
  else
    let bytes_per_frame := BYTES_PER_SAMPLE * channels
    let usable := (payload.length / bytes_per_frame) * bytes_per_frame
    if usable ≤ 0 then writer
    else
      let payload1 := payload.take usable
      -- start_sample = int(round(pts_us * sample_rate / 1_000_000.0)),
      -- clamped below at 0
      let start_sample := (pyRound ((pts_us * sample_rate : ℤ) / (1000000 : ℚ))).toNat
      if start_sample > writer.last_sample_index then
        let gap_frames := start_sample - writer.last_sample_index
        let silence := List.replicate (gap_frames * bytes_per_frame) 0
        let writer1 : StreamWriter :=
          { wavFrames := writer.wavFrames ++ silence
            pcmFile := writer.pcmFile ++ silence
            last_sample_index := writer.last_sample_index + gap_frames
            bytes_written := writer.bytes_written + silence.length }
        { wavFrames := writer1.wavFrames ++ payload1
          pcmFile := writer1.pcmFile ++ payload1
          last_sample_index := writer1.last_sample_index + payload1.length / bytes_per_frame
          bytes_written := writer1.bytes_written + payload1.length }
      else if start_sample < writer.last_sample_index then
        let overlap_frames := writer.last_sample_index - start_sample
        let drop_bytes := overlap_frames * bytes_per_frame
        if drop_bytes ≥ payload1.length then writer
        else
          let payload2 := payload1.drop drop_bytes
          { wavFrames := writer.wavFrames ++ payload2
            pcmFile := writer.pcmFile ++ payload2
            last_sample_index := writer.last_sample_index + payload2.length / bytes_per_frame
            bytes_written := writer.bytes_written + payload2.length }
      else
        { wavFrames := writer.wavFrames ++ payload1
          pcmFile := writer.pcmFile ++ payload1
          last_sample_index := writer.last_sample_index + payload1.length / bytes_per_frame
          bytes_written := writer.bytes_written + payload1.length }

/-! ## Transcript emitter (`muesli_backend.TranscriptEmitter`, lines 238–304).

The JSONL events written to stdout are reified as an inductive `Event`; a
call to `emit_transcript` returns the updated emitter state together with
the list of events it emitted, in order. -/

/-- One JSONL event emitted by the transcript emitter. -/
inductive Event where
  /-- `{"type": "speakers", "known": [...]}`; each entry is
  `{"speaker_id": s, "name": s}`. -/
  | speakers (known : List String)
  /-- `{"type": "segment", ...}`. -/
  | segment (speaker speaker_id : String) (stream : Option String)
      (t0 t1 : ℚ) (text : String)
  /-- The `"type": "partial"` event. -/
  | interim (speaker_id : String) (stream : Option String) (t0 : ℚ) (text : String)
deriving DecidableEq, Repr

/-- Emitter state: `finalize_lag` plus the three mutable attributes
(`_last_emitted_t1_by_stream`, `_last_partial_by_stream`, `_seen_speakers`).
Dicts are modelled as total functions with the `.get(key, default)` defaults
built in; the speaker set is a duplicate-free list in insertion order. -/
structure TranscriptEmitter where
  finalize_lag : ℚ
  last_emitted_t1_by_stream : String → ℚ
  last_partl_by_stream : String → Option (String × ℚ × String)
  seen_speakers : List String

/-- Model of `TranscriptEmitter.__init__`: empty dicts (so every stream key reads the
default `0.0` / `None`) and an empty speaker set. -/
def TranscriptEmitter.init (finalize_lag : ℚ) : TranscriptEmitter :=
  ⟨finalize_lag, fun _ => 0, fun _ => none, []⟩

/-- Computes `speaker_id = f"{stream_name}:{turn.speaker}" if stream_name else speaker`. -/
def speakerId (stream_name : Option String) (speaker : String) : String :=
  match stream_name with
  | some s => s ++ ":" ++ speaker
  | none => speaker

/-- The new-speakers loop: insert each turn's `speaker_id` into the seen set,
flagging whether any was new. -/
def collectSpeakers (stream_name : Option String) (seen : List String)
    (turns : List SpeakerTurn) : List String × Bool :=
  turns.foldl (fun (acc : List String × Bool) turn =>
    let sid := speakerId stream_name turn.speaker
    if sid ∈ acc.1 then acc else (acc.1 ++ [sid], true)) (seen, false)

/-- The cutoff: `current_duration if finalize else
max(0.0, current_duration - finalize_lag)`. -/
def cutoffOf (finalize : Bool) (current_duration finalize_lag : ℚ) : ℚ :=
  if finalize then current_duration else max 0 (current_duration - finalize_lag)

/-- The segment-emission loop: walk the turns in order, emitting a `segment`
for each turn with `end ≤ cutoff` and `end > last_emitted_t1 + 0.02`, and
advancing `last_emitted_t1` to `max last_emitted_t1 end`.  Returns the final
`last_emitted_t1` and the emitted events. -/
def segEmit (stream_name : Option String) (cutoff : ℚ) :
    ℚ → List SpeakerTurn → ℚ × List Event
  | last_emitted_t1, [] => (last_emitted_t1, [])
  | last_emitted_t1, turn :: rest =>
    if turn.«end» ≤ cutoff ∧ turn.«end» > last_emitted_t1 + 2/100 then
      let ev := Event.segment turn.speaker (speakerId stream_name turn.speaker)
        stream_name turn.start turn.«end» turn.text
      let r := segEmit stream_name cutoff (max last_emitted_t1 turn.«end») rest
      (r.1, ev :: r.2)
    else
      segEmit stream_name cutoff last_emitted_t1 rest

/-- The partial-emission step (`if not finalize: ...`): given the last turn
and the stored fingerprint, return the updated fingerprint and the emitted
event, if any. -/
def partlEmit (stream_name : Option String) (cutoff : ℚ)
    (last_partl : Option (String × ℚ × String)) (last_turn : SpeakerTurn) :
    Option (String × ℚ × String) × List Event :=
  if last_turn.«end» > cutoff then
    let fingerprint := (last_turn.speaker, last_turn.start, last_turn.text)
    if some fingerprint ≠ last_partl then
      (some fingerprint,
        [Event.interim (speakerId stream_name last_turn.speaker) stream_name
          last_turn.start last_turn.text])
    else (last_partl, [])
  else (last_partl, [])

/-- Model of `TranscriptEmitter.emit_transcript` (lines 247–304). -/
def TranscriptEmitter.emit_transcript (em : TranscriptEmitter)
    (merged : MergedTranscript) (current_duration : ℚ) (finalize : Bool)
    (stream_name : Option String := none) : TranscriptEmitter × List Event :=
  match merged.turns with
  | [] => (em, [])
  | first_turn :: later_turns =>
    let stream_key := stream_name.getD "default"
    let last_emitted_t1 := em.last_emitted_t1_by_stream stream_key
    let last_partl := em.last_partl_by_stream stream_key
    let seen := collectSpeakers stream_name em.seen_speakers (first_turn :: later_turns)
    let speaker_evs :=
      if seen.2 then [Event.speakers (seen.1.mergeSort (fun a b => a ≤ b))] else []
    let cutoff := cutoffOf finalize current_duration em.finalize_lag
    let seg := segEmit stream_name cutoff last_emitted_t1 (first_turn :: later_turns)
    let pr :=
      if finalize then (last_partl, [])
      else partlEmit stream_name cutoff last_partl ((first_turn :: later_turns).getLast (by simp))
    (⟨em.finalize_lag,
      Function.update em.last_emitted_t1_by_stream stream_key seg.1,
      Function.update em.last_partl_by_stream stream_key pr.1,
      seen.1⟩,
     speaker_evs ++ seg.2 ++ pr.2)

/-- One call to the emitter, for reasoning about call sequences. -/
structure EmitCall where
  merged : MergedTranscript
  current_duration : ℚ
  finalize : Bool
  stream_name : Option String

/-- Run a sequence of `emit_transcript` calls, accumulating all events. -/
def runEmitter (em : TranscriptEmitter) : List EmitCall → TranscriptEmitter × List Event
  | [] => (em, [])
  | c :: cs =>
    let step := em.emit_transcript c.merged c.current_duration c.finalize c.stream_name
    let rest := runEmitter step.1 cs
    (rest.1, step.2 ++ rest.2)

/-- The `t1` values of the `segment` events belonging to a given emitter
stream key (stream name with the `"default"` fallback), in emission order. -/
def segT1sFor (key : String) (evs : List Event) : List ℚ :=
  evs.filterMap (fun ev =>
    match ev with
    | Event.segment _ _ stream _ t1 _ => if stream.getD "default" = key then some t1 else none
    | _ => none)

/-- The `t1` values of all `segment` events in a list, in order. -/
def segT1s (evs : List Event) : List ℚ :=
  evs.filterMap (fun ev =>
    match ev with
    | Event.segment _ _ _ _ t1 _ => some t1
    | _ => none)

/-! # Theorems -/

/-! ## Turn grouping is a partition (C9) -/

theorem turnsGo_flatten (g m : ℚ) :
    ∀ (rest : List LabelledWord) (sp : String) (h : LabelledWord) (t : List LabelledWord),
      ((turnsGo g m sp h t rest).map SpeakerTurn.words).flatten = (h :: t) ++ rest := by
  intro rest
  induction rest with
  | nil => intro sp h t; simp [turnsGo, mkTurn]
  | cons word rest ih =>
    intro sp h t
    by_cases hc : word.speaker ≠ sp ∨
        word.start - ((h :: t).getLast (by simp)).«end» > g ∨ word.«end» - h.start > m
    · simp only [turnsGo, if_pos hc, List.map_cons, List.flatten_cons, ih, mkTurn]
      simp
    · simp only [turnsGo, if_neg hc, ih]
      simp

theorem turnsGo_mem_words_ne_nil (g m : ℚ) :
    ∀ (rest : List LabelledWord) (sp : String) (h : LabelledWord) (t : List LabelledWord)
      (turn : SpeakerTurn), turn ∈ turnsGo g m sp h t rest → turn.words ≠ [] := by
  intro rest
  induction rest with
  | nil =>
    intro sp h t turn hmem
    simp only [turnsGo, List.mem_singleton] at hmem
    subst hmem
    simp [mkTurn]
  | cons word rest ih =>
    intro sp h t turn hmem
    by_cases hc : word.speaker ≠ sp ∨
        word.start - ((h :: t).getLast (by simp)).«end» > g ∨ word.«end» - h.start > m
    · simp only [turnsGo, if_pos hc, List.mem_cons] at hmem
      rcases hmem with rfl | hmem
      · simp [mkTurn]
      · exact ih _ _ _ _ hmem
    · simp only [turnsGo, if_neg hc] at hmem
      exact ih _ _ _ _ hmem

/-- C9: `words_to_turns` partitions its input: every returned turn has a
non-empty word list, and concatenating the turns' word lists in order yields
exactly the input word list. -/
theorem words_to_turns_partition (ws : List LabelledWord) (g m : ℚ) :
    ((words_to_turns ws g m).map SpeakerTurn.words).flatten = ws
    ∧ ∀ turn ∈ words_to_turns ws g m, turn.words ≠ [] := by
  cases ws with
  | nil => simp [words_to_turns]
  | cons w0 rest =>
    constructor
    · simpa [words_to_turns] using turnsGo_flatten g m rest w0.speaker w0 []
    · intro turn hmem
      exact turnsGo_mem_words_ne_nil g m rest w0.speaker w0 [] turn
        (by simpa [words_to_turns] using hmem)

/-! ## Empty-transcript calls are no-ops (C8) -/

/-- C8: a call to `emit_transcript` whose merged transcript has an empty
turns list emits no event and leaves the emitter state unchanged, for every
state, duration, finalize flag and stream name. -/
theorem emit_transcript_empty_turns (em : TranscriptEmitter)
    (ws : List LabelledWord) (segs : List DiarSegment) (cd : ℚ) (finalize : Bool)
    (sn : Option String) :
    em.emit_transcript ⟨[], ws, segs⟩ cd finalize sn = (em, []) := rfl

/-! ## One-frame silence insertion (C5) -/

theorem write_aligned_audio_one_gap_frame (w : StreamWriter) (p : List ℕ)
    (pts : ℤ) (sr ch m : ℕ) (hch : 1 ≤ ch) (hm : 1 ≤ m)
    (hlen : p.length = m * (BYTES_PER_SAMPLE * ch))
    (hround : pyRound ((pts * sr : ℤ) / (1000000 : ℚ)) = (w.last_sample_index : ℤ) + 1) :
    write_aligned_audio w p pts sr ch =
      { wavFrames := w.wavFrames ++ List.replicate (BYTES_PER_SAMPLE * ch) 0 ++ p
        pcmFile := w.pcmFile ++ List.replicate (BYTES_PER_SAMPLE * ch) 0 ++ p
        last_sample_index := w.last_sample_index + 1 + m
        bytes_written := w.bytes_written + BYTES_PER_SAMPLE * ch + p.length } := by
  have hBpos : 0 < BYTES_PER_SAMPLE * ch := by
    simp only [BYTES_PER_SAMPLE]
    omega
  have hmBpos : 0 < m * (BYTES_PER_SAMPLE * ch) := Nat.mul_pos (by omega) hBpos
  have hp : ¬p = [] := by
    intro h
    rw [h] at hlen
    simp only [List.length_nil] at hlen
    omega
  have hdiv : p.length / (BYTES_PER_SAMPLE * ch) = m := by
    rw [hlen]
    exact Nat.mul_div_cancel m hBpos
  have hss : (pyRound ((pts * sr : ℤ) / (1000000 : ℚ))).toNat = w.last_sample_index + 1 := by
    rw [hround]
    omega
  have hu : ¬m * (BYTES_PER_SAMPLE * ch) ≤ 0 := by omega
  have hgap : w.last_sample_index + 1 > w.last_sample_index := by omega
  have htake : p.take (m * (BYTES_PER_SAMPLE * ch)) = p := by
    rw [← hlen]
    exact List.take_length p
  unfold write_aligned_audio
  simp only [if_neg hp, hdiv, if_neg hu, hss, if_pos hgap, htake]
  simp only [Nat.add_sub_cancel_left, one_mul, List.length_replicate]

/-- Witness for C5 at a concrete input: one 2-byte frame of silence is
inserted before the payload. -/
theorem write_aligned_audio_one_gap_frame_witness :
    (1 ≤ 1 ∧ ([5, 6] : List ℕ).length = 1 * (BYTES_PER_SAMPLE * 1) ∧
      pyRound (((1 : ℤ) * (1000000 : ℕ) : ℤ) / (1000000 : ℚ)) =
        (freshWriter.last_sample_index : ℤ) + 1) ∧
    write_aligned_audio freshWriter [5, 6] 1 1000000 1 =
      { wavFrames := freshWriter.wavFrames ++ List.replicate (BYTES_PER_SAMPLE * 1) 0 ++ [5, 6]
        pcmFile := freshWriter.pcmFile ++ List.replicate (BYTES_PER_SAMPLE * 1) 0 ++ [5, 6]
        last_sample_index := freshWriter.last_sample_index + 1 + 1
        bytes_written := freshWriter.bytes_written + BYTES_PER_SAMPLE * 1 + ([5, 6] : List ℕ).length } :=
  ⟨⟨le_refl 1, by simp [BYTES_PER_SAMPLE], by norm_num [pyRound, freshWriter, Int.fract]⟩,
    write_aligned_audio_one_gap_frame freshWriter [5, 6] 1 1000000 1 1 (le_refl 1) (le_refl 1)
      (by simp [BYTES_PER_SAMPLE]) (by norm_num [pyRound, freshWriter, Int.fract])⟩

/-! ## Raw-file size invariant of the PCM aligner (C3) -/

theorem write_aligned_audio_pcm_size (w : StreamWriter) (p : List ℕ) (pts : ℤ)
    (sr ch : ℕ) (hch : 1 ≤ ch)
    (hinv : w.pcmFile.length = w.last_sample_index * (BYTES_PER_SAMPLE * ch)) :
    (write_aligned_audio w p pts sr ch).pcmFile.length =
      (write_aligned_audio w p pts sr ch).last_sample_index * (BYTES_PER_SAMPLE * ch) := by
  unfold write_aligned_audio
  by_cases hp : p = []
  · simp [hp, hinv]
  · simp only [if_neg hp]
    have hbpf_pos : 0 < BYTES_PER_SAMPLE * ch := by
      simp only [BYTES_PER_SAMPLE]
      omega
    generalize hB : BYTES_PER_SAMPLE * ch = B at *
    generalize hq : p.length / B = q
    by_cases hu : q * B ≤ 0
    · simp only [if_pos hu, hinv]
    · simp only [if_neg hu]
      have hqB_le : q * B ≤ p.length := by
        rw [← hq]
        exact Nat.div_mul_le_self _ _
      have htake : (p.take (q * B)).length = q * B := by
        simp [Nat.min_eq_left hqB_le]
      have hqq : q * B / B = q := Nat.mul_div_cancel q hbpf_pos
      by_cases hgap : (pyRound ((pts * sr : ℤ) / (1000000 : ℚ))).toNat > w.last_sample_index
      · simp only [if_pos hgap, List.length_append, List.length_replicate, htake, hinv, hqq]
        ring
      · simp only [if_neg hgap]
        by_cases hover : (pyRound ((pts * sr : ℤ) / (1000000 : ℚ))).toNat < w.last_sample_index
        · simp only [if_pos hover]
          by_cases hfull : q * B ≤
              (w.last_sample_index - (pyRound ((pts * sr : ℤ) / (1000000 : ℚ))).toNat) * B
          · simp only [ge_iff_le, htake, if_pos hfull, hinv]
          · simp only [ge_iff_le, htake, if_neg hfull, List.length_append, List.length_drop, hinv]
            rw [← Nat.sub_mul, Nat.mul_div_cancel _ hbpf_pos, Nat.add_mul]
        · simp only [if_neg hover, List.length_append, htake, hinv, hqq]
          ring

/-- C3: starting from a freshly opened stream writer, after any sequence of
`write_aligned_audio` calls with a fixed sample rate and `channels ≥ 1`, the
raw PCM file size in bytes equals
`last_sample_index × bytes_per_frame` with `bytes_per_frame = 2 × channels`. -/
theorem pcm_size_eq_samples_times_frame (calls : List (List ℕ × ℤ)) (sr ch : ℕ)
    (hch : 1 ≤ ch) :
    (calls.foldl (fun w pc => write_aligned_audio w pc.1 pc.2 sr ch) freshWriter).pcmFile.length =
      (calls.foldl (fun w pc => write_aligned_audio w pc.1 pc.2 sr ch)
          freshWriter).last_sample_index * (BYTES_PER_SAMPLE * ch) := by
  have main : ∀ (cs : List (List ℕ × ℤ)) (w : StreamWriter),
      w.pcmFile.length = w.last_sample_index * (BYTES_PER_SAMPLE * ch) →
      (cs.foldl (fun w pc => write_aligned_audio w pc.1 pc.2 sr ch) w).pcmFile.length =
        (cs.foldl (fun w pc => write_aligned_audio w pc.1 pc.2 sr ch)
            w).last_sample_index * (BYTES_PER_SAMPLE * ch) := by
    intro cs
    induction cs with
    | nil => intro w hw; simpa using hw
    | cons c cs ih =>
      intro w hw
      simp only [List.foldl_cons]
      exact ih _ (write_aligned_audio_pcm_size w c.1 c.2 sr ch hch hw)
  exact main calls freshWriter (by simp [freshWriter])

/-- Witness for C3 at a concrete input. -/
theorem pcm_size_eq_samples_times_frame_witness :
    1 ≤ 1 ∧
    (([([5, 6, 7], 0)] : List (List ℕ × ℤ)).foldl
        (fun w pc => write_aligned_audio w pc.1 pc.2 16000 1) freshWriter).pcmFile.length =
      (([([5, 6, 7], 0)] : List (List ℕ × ℤ)).foldl
          (fun w pc => write_aligned_audio w pc.1 pc.2 16000 1)
          freshWriter).last_sample_index * (BYTES_PER_SAMPLE * 1) :=
  ⟨by norm_num, pcm_size_eq_samples_times_frame [([5, 6, 7], 0)] 16000 1 (by norm_num)⟩

/-! ## The emitter's segment loop (shared lemmas for C1 and C2) -/

theorem segEmit_spec (sn : Option String) (c : ℚ) :
    ∀ (ts : List SpeakerTurn) (L : ℚ),
      L ≤ (segEmit sn c L ts).1
      ∧ List.Chain' (fun a b : ℚ => a + 2/100 < b) (L :: segT1s (segEmit sn c L ts).2)
      ∧ ∀ t1 ∈ segT1s (segEmit sn c L ts).2,
          L + 2/100 < t1 ∧ t1 ≤ (segEmit sn c L ts).1 ∧ t1 ≤ c := by
  intro ts
  induction ts with
  | nil => intro L; simp [segEmit, segT1s]
  | cons turn rest ih =>
    intro L
    by_cases hc : turn.«end» ≤ c ∧ turn.«end» > L + 2/100
    · obtain ⟨ihle, ihchain, ihmem⟩ := ih (max L turn.«end»)
      simp only [segEmit, if_pos hc]
      have hsegT1s :
          segT1s (Event.segment turn.speaker (speakerId sn turn.speaker) sn turn.start
              turn.«end» turn.text :: (segEmit sn c (max L turn.«end») rest).2) =
            turn.«end» :: segT1s (segEmit sn c (max L turn.«end») rest).2 := by
        simp [segT1s]
      refine ⟨le_trans (le_max_left _ _) ihle, ?_, ?_⟩
      · rw [hsegT1s, List.chain'_cons]
        refine ⟨hc.2, ?_⟩
        rcases (List.chain'_cons'.mp ihchain) with ⟨hhead, htail⟩
        exact List.chain'_cons'.mpr
          ⟨fun h hh => lt_of_le_of_lt (by simp) (hhead h hh), htail⟩
      · rw [hsegT1s]
        intro t1 ht1
        rcases List.mem_cons.mp ht1 with rfl | hmem
        · exact ⟨hc.2, le_trans (le_max_right _ _) ihle, hc.1⟩
        · obtain ⟨h1, h2, h3⟩ := ihmem t1 hmem
          exact ⟨lt_of_le_of_lt (by simp) h1, h2, h3⟩
    · simp only [segEmit, if_neg hc]
      exact ih L

theorem segT1s_append (l1 l2 : List Event) :
    segT1s (l1 ++ l2) = segT1s l1 ++ segT1s l2 := by
  simp [segT1s]

theorem segT1sFor_append (key : String) (l1 l2 : List Event) :
    segT1sFor key (l1 ++ l2) = segT1sFor key l1 ++ segT1sFor key l2 := by
  simp [segT1sFor]

theorem segT1s_speaker_evs (b : Bool) (known : List String) :
    segT1s (if b then [Event.speakers known] else []) = [] := by
  cases b <;> simp [segT1s]

theorem segT1sFor_speaker_evs (key : String) (b : Bool) (known : List String) :
    segT1sFor key (if b then [Event.speakers known] else []) = [] := by
  cases b <;> simp [segT1sFor]

theorem segT1s_partlEmit (sn : Option String) (c : ℚ)
    (lp : Option (String × ℚ × String)) (lt : SpeakerTurn) :
    segT1s (partlEmit sn c lp lt).2 = [] := by
  unfold partlEmit
  by_cases h1 : lt.«end» > c
  · simp only [if_pos h1]
    by_cases h2 : some (lt.speaker, lt.start, lt.text) ≠ lp
    · simp [if_pos h2, segT1s]
    · simp [if_neg h2, segT1s]
  · simp [if_neg h1, segT1s]

theorem segT1sFor_partlEmit (key : String) (sn : Option String) (c : ℚ)
    (lp : Option (String × ℚ × String)) (lt : SpeakerTurn) :
    segT1sFor key (partlEmit sn c lp lt).2 = [] := by
  unfold partlEmit
  by_cases h1 : lt.«end» > c
  · simp only [if_pos h1]
    by_cases h2 : some (lt.speaker, lt.start, lt.text) ≠ lp
    · simp [if_pos h2, segT1sFor]
    · simp [if_neg h2, segT1sFor]
  · simp [if_neg h1, segT1sFor]

theorem segT1s_cons_segment (sp sid : String) (sn : Option String) (t0 t1 : ℚ)
    (tx : String) (l : List Event) :
    segT1s (Event.segment sp sid sn t0 t1 tx :: l) = t1 :: segT1s l := by
  simp [segT1s]

theorem segT1sFor_cons_segment (key sp sid : String) (sn : Option String)
    (t0 t1 : ℚ) (tx : String) (l : List Event) :
    segT1sFor key (Event.segment sp sid sn t0 t1 tx :: l) =
      if sn.getD "default" = key then t1 :: segT1sFor key l else segT1sFor key l := by
  by_cases h : sn.getD "default" = key
  · simp [segT1sFor, List.filterMap_cons, h]
  · simp [segT1sFor, List.filterMap_cons, h]

theorem segEmit_stream_segT1sFor (sn : Option String) (c : ℚ) (key : String) :
    ∀ (ts : List SpeakerTurn) (L : ℚ),
      segT1sFor key (segEmit sn c L ts).2 =
        if sn.getD "default" = key then segT1s (segEmit sn c L ts).2 else [] := by
  intro ts
  induction ts with
  | nil => intro L; simp [segEmit, segT1s, segT1sFor]
  | cons turn rest ih =>
    intro L
    by_cases hc : turn.«end» ≤ c ∧ turn.«end» > L + 2/100
    · simp only [segEmit, if_pos hc]
      rw [segT1sFor_cons_segment, segT1s_cons_segment, ih (max L turn.«end»)]
      by_cases hkey : sn.getD "default" = key
      · simp [if_pos hkey]
      · simp [if_neg hkey]
    · simp only [segEmit, if_neg hc]
      exact ih L

/-- What one `emit_transcript` call contributes, keyed by emitter stream key:
its segment `t1`s are exactly those of the segment loop when the call's key
matches, and `last_emitted_t1` is updated to the loop's final value for the
call's key and untouched for every other key. -/
theorem emit_call_spec (em : TranscriptEmitter) (mg : MergedTranscript) (cd : ℚ)
    (fin : Bool) (sn : Option String) (key : String) :
    (segT1sFor key (em.emit_transcript mg cd fin sn).2 =
        if sn.getD "default" = key then
          segT1s (segEmit sn (cutoffOf fin cd em.finalize_lag)
            (em.last_emitted_t1_by_stream (sn.getD "default")) mg.turns).2
        else [])
    ∧ (em.emit_transcript mg cd fin sn).1.last_emitted_t1_by_stream key =
        (if sn.getD "default" = key then
          (segEmit sn (cutoffOf fin cd em.finalize_lag)
            (em.last_emitted_t1_by_stream (sn.getD "default")) mg.turns).1
        else em.last_emitted_t1_by_stream key) := by
  obtain ⟨ts, ws, segs⟩ := mg
  cases ts with
  | nil =>
    constructor
    · simp [TranscriptEmitter.emit_transcript, segT1sFor, segEmit, segT1s]
    · simp only [TranscriptEmitter.emit_transcript, segEmit]
      split
      · rename_i hkey
        rw [hkey]
      · rfl
  | cons t0 ts' =>
    constructor
    · simp only [TranscriptEmitter.emit_transcript, segT1sFor_append,
        segT1sFor_speaker_evs, segEmit_stream_segT1sFor]
      split
      · split
        · simp [segT1sFor]
        · simp [segT1sFor_partlEmit]
      · split
        · simp [segT1sFor]
        · simp [segT1sFor_partlEmit]
    · simp only [TranscriptEmitter.emit_transcript, Function.update_apply]
      by_cases hkey : sn.getD "default" = key
      · rw [if_pos hkey, if_pos hkey.symm, hkey]
      · rw [if_neg hkey, if_neg (fun h => hkey h.symm)]

/-- Running a sequence of calls: on each stream key, the emitted segment
`t1`s continue the chain from the stored `last_emitted_t1`, which never
decreases and ends at least as large as every emitted `t1`. -/
theorem runEmitter_spec (key : String) :
    ∀ (calls : List EmitCall) (em : TranscriptEmitter),
      List.Chain' (fun a b : ℚ => a + 2/100 < b)
        (em.last_emitted_t1_by_stream key :: segT1sFor key (runEmitter em calls).2)
      ∧ em.last_emitted_t1_by_stream key ≤
          (runEmitter em calls).1.last_emitted_t1_by_stream key
      ∧ ∀ t1 ∈ segT1sFor key (runEmitter em calls).2,
          t1 ≤ (runEmitter em calls).1.last_emitted_t1_by_stream key := by
  intro calls
  induction calls with
  | nil => intro em; simp [runEmitter, segT1sFor]
  | cons c cs ih =>
    intro em
    obtain ⟨hA, hL1⟩ := emit_call_spec em c.merged c.current_duration c.finalize
      c.stream_name key
    obtain ⟨ihchain, ihle, ihmem⟩ :=
      ih (em.emit_transcript c.merged c.current_duration c.finalize c.stream_name).1
    simp only [runEmitter, segT1sFor_append]
    by_cases hkey : c.stream_name.getD "default" = key
    · rw [if_pos hkey] at hA hL1
      rw [hkey] at hA hL1
      obtain ⟨sLe, sChain, sMem⟩ := segEmit_spec c.stream_name
        (cutoffOf c.finalize c.current_duration em.finalize_lag) c.merged.turns
        (em.last_emitted_t1_by_stream key)
      rw [hA]
      rw [hL1] at ihchain ihle
      obtain ⟨ihhead, ihtail⟩ := List.chain'_cons'.mp ihchain
      have hlink : ∀ x ∈ (em.last_emitted_t1_by_stream key ::
          segT1s (segEmit c.stream_name
            (cutoffOf c.finalize c.current_duration em.finalize_lag)
            (em.last_emitted_t1_by_stream key) c.merged.turns).2).getLast?,
          x ≤ (segEmit c.stream_name
            (cutoffOf c.finalize c.current_duration em.finalize_lag)
            (em.last_emitted_t1_by_stream key) c.merged.turns).1 := by
        intro x hx
        rcases List.mem_cons.mp (List.mem_of_mem_getLast? hx) with rfl | hxA
        · exact sLe
        · exact (sMem x hxA).2.1
      refine ⟨?_, ?_, ?_⟩
      · have hform : em.last_emitted_t1_by_stream key ::
            (segT1s (segEmit c.stream_name
              (cutoffOf c.finalize c.current_duration em.finalize_lag)
              (em.last_emitted_t1_by_stream key) c.merged.turns).2 ++
              segT1sFor key (runEmitter (em.emit_transcript c.merged c.current_duration
                c.finalize c.stream_name).1 cs).2) =
            (em.last_emitted_t1_by_stream key ::
              segT1s (segEmit c.stream_name
                (cutoffOf c.finalize c.current_duration em.finalize_lag)
                (em.last_emitted_t1_by_stream key) c.merged.turns).2) ++
              segT1sFor key (runEmitter (em.emit_transcript c.merged c.current_duration
                c.finalize c.stream_name).1 cs).2 := by
          simp
        rw [hform, List.chain'_append]
        refine ⟨sChain, ihtail, ?_⟩
        intro x hx y hy
        have hxle := hlink x hx
        have := ihhead y hy
        simp only at this ⊢
        linarith
      · calc em.last_emitted_t1_by_stream key
            ≤ (segEmit c.stream_name
                (cutoffOf c.finalize c.current_duration em.finalize_lag)
                (em.last_emitted_t1_by_stream key) c.merged.turns).1 := sLe
          _ ≤ _ := ihle
      · intro t1 ht1
        rcases List.mem_append.mp ht1 with hmem | hmem
        · exact le_trans (sMem t1 hmem).2.1 ihle
        · exact ihmem t1 hmem
    · rw [if_neg hkey] at hA hL1
      rw [hA]
      rw [hL1] at ihchain ihle
      simpa using ⟨ihchain, ihle, ihmem⟩

/-- C1: across any sequence of `emit_transcript` calls from a fresh emitter,
the `t1` values of the `segment` events of any one stream key form a strictly
increasing sequence: each exceeds the previously recorded `last_emitted_t1`
(initially `0`) by more than `0.02`, and `last_emitted_t1` ends at least as
large as every emitted `t1`. -/
theorem emitter_segment_t1_strict_monotone (lag : ℚ) (calls : List EmitCall)
    (key : String) :
    List.Chain' (fun a b : ℚ => a + 2/100 < b)
      ((0 : ℚ) :: segT1sFor key (runEmitter (TranscriptEmitter.init lag) calls).2)
    ∧ ∀ t1 ∈ segT1sFor key (runEmitter (TranscriptEmitter.init lag) calls).2,
        t1 ≤ (runEmitter (TranscriptEmitter.init lag) calls).1.last_emitted_t1_by_stream key := by
  have h := runEmitter_spec key calls (TranscriptEmitter.init lag)
  exact ⟨h.1, h.2.2⟩

theorem emit_call_segT1s (em : TranscriptEmitter) (mg : MergedTranscript) (cd : ℚ)
    (fin : Bool) (sn : Option String) :
    segT1s (em.emit_transcript mg cd fin sn).2 =
      segT1s (segEmit sn (cutoffOf fin cd em.finalize_lag)
        (em.last_emitted_t1_by_stream (sn.getD "default")) mg.turns).2 := by
  obtain ⟨ts, ws, segs⟩ := mg
  cases ts with
  | nil => simp [TranscriptEmitter.emit_transcript, segEmit, segT1s]
  | cons t0 ts' =>
    simp only [TranscriptEmitter.emit_transcript, segT1s_append, segT1s_speaker_evs]
    by_cases hfin : fin = true
    · simp [hfin, segT1s]
    · simp only [Bool.not_eq_true] at hfin
      subst hfin
      simp only [Bool.false_eq_true, if_false, segT1s_partlEmit, List.append_nil,
        List.nil_append]

/-- C2: for every `emit_transcript` call with `finalize = false`,
`current_duration ≥ 0`, `finalize_lag ≥ 0` (and the stream's stored
`last_emitted_t1` non-negative, as holds in every reachable state), the
computed cutoff satisfies `cutoff ≤ current_duration`, and no `segment`
emitted by the call has `t1 > current_duration − finalize_lag`. -/
theorem emit_transcript_cutoff_bound (em : TranscriptEmitter) (mg : MergedTranscript)
    (cd : ℚ) (sn : Option String) (hcd : 0 ≤ cd) (hlag : 0 ≤ em.finalize_lag)
    (hlast : 0 ≤ em.last_emitted_t1_by_stream (sn.getD "default")) :
    cutoffOf false cd em.finalize_lag ≤ cd
    ∧ ∀ t1 ∈ segT1s (em.emit_transcript mg cd false sn).2,
        t1 ≤ cd - em.finalize_lag := by
  constructor
  · simp only [cutoffOf, Bool.false_eq_true, if_false]
    exact max_le hcd (by linarith)
  · intro t1 ht1
    rw [emit_call_segT1s] at ht1
    obtain ⟨-, -, sMem⟩ := segEmit_spec sn (cutoffOf false cd em.finalize_lag)
      mg.turns (em.last_emitted_t1_by_stream (sn.getD "default"))
    obtain ⟨hgt, -, hlec⟩ := sMem t1 ht1
    by_cases h : 0 ≤ cd - em.finalize_lag
    · have hcut : cutoffOf false cd em.finalize_lag = cd - em.finalize_lag := by
        simp only [cutoffOf, Bool.false_eq_true, if_false]
        exact max_eq_right h
      rw [hcut] at hlec
      exact hlec
    · have hcut : cutoffOf false cd em.finalize_lag = 0 := by
        simp only [cutoffOf, Bool.false_eq_true, if_false]
        exact max_eq_left (by linarith)
      rw [hcut] at hlec
      linarith

/-- Witness for C2 at a concrete input. -/
theorem emit_transcript_cutoff_bound_witness :
    ((0 : ℚ) ≤ 10 ∧ 0 ≤ (TranscriptEmitter.init 5).finalize_lag ∧
      0 ≤ (TranscriptEmitter.init 5).last_emitted_t1_by_stream
        ((none : Option String).getD "default")) ∧
    (cutoffOf false 10 (TranscriptEmitter.init 5).finalize_lag ≤ 10
     ∧ ∀ t1 ∈ segT1s ((TranscriptEmitter.init 5).emit_transcript
          ⟨[⟨"A", 0, 3, "hi", []⟩], [], []⟩ 10 false none).2,
        t1 ≤ 10 - (TranscriptEmitter.init 5).finalize_lag) :=
  ⟨⟨by norm_num, by norm_num [TranscriptEmitter.init], le_refl 0⟩,
   emit_transcript_cutoff_bound (TranscriptEmitter.init 5)
     ⟨[⟨"A", 0, 3, "hi", []⟩], [], []⟩ 10 none (by norm_num)
     (by norm_num [TranscriptEmitter.init]) (le_refl 0)⟩

/-! ## Punctuation-aware join (C7) -/

theorem join_words_smart_single (w : LabelledWord) :
    join_words_smart [w] = ⟨pyStrip (collapseSpaces w.text.data)⟩ := by
  by_cases h : w.text.data = []
  · simp [join_words_smart, joinParts, h]
  · simp [join_words_smart, joinParts, h]

theorem collapseSpaces_no_double :
    ∀ l : List Char, hasDoubleSpace (collapseSpaces l) = false := by
  intro l
  induction l using collapseSpaces.induct with
  | case1 l hd ih =>
    rw [collapseSpaces, if_pos hd]
    exact ih
  | case2 l hd =>
    rw [collapseSpaces, if_neg hd]
    exact Bool.not_eq_true _ ▸ hd

theorem hasDoubleSpace_iff_infix (l : List Char) :
    hasDoubleSpace l = true ↔ [' ', ' '] <:+: l := by
  induction l using hasDoubleSpace.induct with
  | case1 =>
    simp only [hasDoubleSpace, Bool.false_eq_true, false_iff]
    intro h
    have := h.sublist.length_le
    simp at this
  | case2 c =>
    simp only [hasDoubleSpace, Bool.false_eq_true, false_iff]
    intro h
    have := h.sublist.length_le
    simp at this
  | case3 c c2 rest ih =>
    simp only [hasDoubleSpace, Bool.or_eq_true, decide_eq_true_eq]
    constructor
    · rintro (⟨rfl, rfl⟩ | h)
      · exact ⟨[], rest, rfl⟩
      · exact List.infix_cons_iff.mpr (Or.inr (ih.mp h))
    · intro h
      rcases List.infix_cons_iff.mp h with hpre | hinf
      · left
        obtain ⟨t, ht⟩ := hpre
        simp only [List.cons_append, List.cons.injEq] at ht
        exact ⟨ht.1.symm, ht.2.1.symm⟩
      · right
        exact ih.mpr hinf

theorem hasDoubleSpace_of_infix {l l' : List Char} (hinf : l' <:+: l)
    (h : hasDoubleSpace l = false) : hasDoubleSpace l' = false := by
  by_contra hne
  rw [Bool.not_eq_false, hasDoubleSpace_iff_infix] at hne
  rw [← Bool.not_eq_true, hasDoubleSpace_iff_infix] at h
  exact h (hne.trans hinf)

theorem pyStrip_isInfix (l : List Char) : pyStrip l <:+: l := by
  have h1 : List.dropWhile isPySpace l <:+ l := List.dropWhile_suffix isPySpace
  have h2 : List.dropWhile isPySpace (List.dropWhile isPySpace l).reverse <:+
      (List.dropWhile isPySpace l).reverse := List.dropWhile_suffix isPySpace
  have h3 : pyStrip l <+: List.dropWhile isPySpace l := by
    have := List.reverse_prefix.mpr h2
    rwa [List.reverse_reverse] at this
  exact h3.isInfix.trans h1.isInfix

/-- C7 (amended): joining a single-word turn yields that word's text with
double-space runs collapsed and leading/trailing whitespace stripped (not the
text merely trimmed), and no joined output ever contains two consecutive
spaces. -/
theorem join_words_smart_props (w : LabelledWord) (ws : List LabelledWord) :
    join_words_smart [w] = ⟨pyStrip (collapseSpaces w.text.data)⟩
    ∧ hasDoubleSpace (join_words_smart ws).data = false := by
  refine ⟨join_words_smart_single w, ?_⟩
  show hasDoubleSpace (pyStrip (collapseSpaces (joinParts ws).flatten)) = false
  exact hasDoubleSpace_of_infix (pyStrip_isInfix _) (collapseSpaces_no_double _)

/-- C7 counterexample: for the single-word turn with text `"a  b"` the join
returns `"a b"`, which is not the word's text trimmed of leading and trailing
whitespace (that is `"a  b"` itself). -/
theorem join_words_smart_single_not_trim :
    join_words_smart [⟨"a  b", 0, 1, "S"⟩] = "a b"
    ∧ pyStrip (("a  b" : String).data) = ("a  b" : String).data
    ∧ ("a b" : String) ≠ "a  b" := by
  refine ⟨?_, by decide, by decide⟩
  rw [join_words_smart_single]
  have h1 : hasDoubleSpace (("a  b" : String).data) = true := by decide
  have h2 : hasDoubleSpace (replaceDouble (("a  b" : String).data)) = false := by decide
  rw [collapseSpaces, if_pos h1, collapseSpaces, if_neg (by rw [h2]; exact Bool.false_ne_true)]
  decide

/-! ## Speaker assignment characterisation (C6) -/

theorem scanStep_fields (w : Word) (st0 : ScanState) (seg : DiarSegment) :
    scanStep w st0 seg =
      ⟨if overlapWith w seg > st0.best_overlap then seg.speaker else st0.best_speaker,
       if overlapWith w seg > st0.best_overlap then overlapWith w seg else st0.best_overlap,
       if distImproves st0.min_distance (distWith w seg) = true then some seg.speaker
         else st0.nearest_speaker,
       if distImproves st0.min_distance (distWith w seg) = true then some (distWith w seg)
         else st0.min_distance⟩ := by
  unfold scanStep distImproves
  by_cases h1 : overlapWith w seg > st0.best_overlap
  · simp only [if_pos h1]
    by_cases h2 : (match st0.min_distance with
        | none => true
        | some d => decide (distWith w seg < d)) = true
    · simp [h2]
    · simp [h2]
  · simp only [if_neg h1]
    by_cases h2 : (match st0.min_distance with
        | none => true
        | some d => decide (distWith w seg < d)) = true
    · simp [h2]
    · simp [h2]

theorem scanSegs_proj (w : Word) :
    ∀ (segs : List DiarSegment) (st0 : ScanState),
      segs.foldl (scanStep w) st0 =
        ⟨(bestGo w (st0.best_speaker, st0.best_overlap) segs).1,
         (bestGo w (st0.best_speaker, st0.best_overlap) segs).2,
         (nearestGo w (st0.nearest_speaker, st0.min_distance) segs).1,
         (nearestGo w (st0.nearest_speaker, st0.min_distance) segs).2⟩ := by
  intro segs
  induction segs with
  | nil => intro st0; simp [bestGo, nearestGo]
  | cons seg rest ih =>
    intro st0
    rw [List.foldl_cons, ih]
    rw [scanStep_fields]
    have hbest : bestGo w (st0.best_speaker, st0.best_overlap) (seg :: rest) =
        bestGo w
          (if overlapWith w seg > st0.best_overlap then seg.speaker else st0.best_speaker,
           if overlapWith w seg > st0.best_overlap then overlapWith w seg
             else st0.best_overlap) rest := by
      by_cases h1 : overlapWith w seg > st0.best_overlap
      · simp [bestGo, if_pos h1]
      · simp [bestGo, if_neg h1]
    have hnear : nearestGo w (st0.nearest_speaker, st0.min_distance) (seg :: rest) =
        nearestGo w
          (if distImproves st0.min_distance (distWith w seg) = true then some seg.speaker
             else st0.nearest_speaker,
           if distImproves st0.min_distance (distWith w seg) = true
             then some (distWith w seg) else st0.min_distance) rest := by
      by_cases h2 : distImproves st0.min_distance (distWith w seg) = true
      · simp [nearestGo, if_pos h2]
      · simp [nearestGo, if_neg h2]
    rw [hbest, hnear]

theorem bestGo_no_improve (w : Word) :
    ∀ (segs : List DiarSegment) (bs0 : String) (bo0 : ℚ),
      (∀ s ∈ segs, overlapWith w s ≤ bo0) → bestGo w (bs0, bo0) segs = (bs0, bo0) := by
  intro segs
  induction segs with
  | nil => intro bs0 bo0 _; rfl
  | cons seg rest ih =>
    intro bs0 bo0 h
    have hseg : ¬overlapWith w seg > bo0 := not_lt.mpr (h seg (by simp))
    rw [bestGo, if_neg hseg]
    exact ih bs0 bo0 (fun s hs => h s (by simp [hs]))

theorem bestGo_improve (w : Word) :
    ∀ (segs : List DiarSegment) (bs0 : String) (bo0 : ℚ),
      (∃ s ∈ segs, overlapWith w s > bo0) →
      ∃ seg, segs.find? (fun s => decide (overlapWith w s = overlapWith w seg)) = some seg
        ∧ (∀ t ∈ segs, overlapWith w t ≤ overlapWith w seg)
        ∧ overlapWith w seg > bo0
        ∧ bestGo w (bs0, bo0) segs = (seg.speaker, overlapWith w seg) := by
  intro segs
  induction segs with
  | nil => intro bs0 bo0 h; simp at h
  | cons seg rest ih =>
    intro bs0 bo0 h
    by_cases h1 : overlapWith w seg > bo0
    · by_cases h2 : ∃ t ∈ rest, overlapWith w t > overlapWith w seg
      · obtain ⟨seg', hfind, hmax, hgt, heq⟩ := ih seg.speaker (overlapWith w seg) h2
        refine ⟨seg', ?_, ?_, lt_trans h1 hgt, ?_⟩
        · rw [List.find?_cons_of_neg, hfind]
          simp only [decide_eq_true_eq]
          exact fun hcontra => absurd hcontra (ne_of_lt hgt)
        · intro t ht
          rcases List.mem_cons.mp ht with rfl | htr
          · exact le_of_lt hgt
          · exact hmax t htr
        · rw [bestGo, if_pos h1]
          exact heq
      · push_neg at h2
        refine ⟨seg, ?_, ?_, h1, ?_⟩
        · rw [List.find?_cons_of_pos]
          simp
        · intro t ht
          rcases List.mem_cons.mp ht with rfl | htr
          · exact le_refl _
          · exact h2 t htr
        · rw [bestGo, if_pos h1]
          exact bestGo_no_improve w rest seg.speaker (overlapWith w seg) h2
    · have h2 : ∃ t ∈ rest, overlapWith w t > bo0 := by
        obtain ⟨t, ht, hgt⟩ := h
        rcases List.mem_cons.mp ht with rfl | htr
        · exact absurd hgt h1
        · exact ⟨t, htr, hgt⟩
      obtain ⟨seg', hfind, hmax, hgt, heq⟩ := ih bs0 bo0 h2
      refine ⟨seg', ?_, ?_, hgt, ?_⟩
      · rw [List.find?_cons_of_neg, hfind]
        simp only [decide_eq_true_eq]
        intro hcontra
        rw [hcontra] at h1
        exact h1 hgt
      · intro t ht
        rcases List.mem_cons.mp ht with rfl | htr
        · exact le_of_lt (lt_of_le_of_lt (not_lt.mp h1) hgt)
        · exact hmax t htr
      · rw [bestGo, if_neg h1]
        exact heq

theorem nearestGo_no_improve (w : Word) :
    ∀ (segs : List DiarSegment) (ns0 : Option String) (md0 : Option ℚ),
      (∀ s ∈ segs, distImproves md0 (distWith w s) = false) →
      nearestGo w (ns0, md0) segs = (ns0, md0) := by
  intro segs
  induction segs with
  | nil => intro ns0 md0 _; rfl
  | cons seg rest ih =>
    intro ns0 md0 h
    have hseg : ¬distImproves md0 (distWith w seg) = true := by
      rw [h seg (by simp)]
      exact Bool.false_ne_true
    rw [nearestGo, if_neg hseg]
    exact ih ns0 md0 (fun s hs => h s (by simp [hs]))

theorem nearestGo_improve (w : Word) :
    ∀ (segs : List DiarSegment) (ns0 : Option String) (md0 : Option ℚ),
      (∃ s ∈ segs, distImproves md0 (distWith w s) = true) →
      ∃ seg, segs.find? (fun s => decide (distWith w s = distWith w seg)) = some seg
        ∧ (∀ t ∈ segs, distWith w seg ≤ distWith w t)
        ∧ distImproves md0 (distWith w seg) = true
        ∧ nearestGo w (ns0, md0) segs = (some seg.speaker, some (distWith w seg)) := by
  intro segs
  induction segs with
  | nil => intro ns0 md0 h; simp at h
  | cons seg rest ih =>
    intro ns0 md0 h
    by_cases h1 : distImproves md0 (distWith w seg) = true
    · by_cases h2 : ∃ t ∈ rest, distImproves (some (distWith w seg)) (distWith w t) = true
      · obtain ⟨seg', hfind, hmin, himp, heq⟩ := ih (some seg.speaker)
          (some (distWith w seg)) h2
        have hlt : distWith w seg' < distWith w seg := by
          simpa [distImproves] using himp
        refine ⟨seg', ?_, ?_, ?_, ?_⟩
        · rw [List.find?_cons_of_neg, hfind]
          simp only [decide_eq_true_eq]
          exact fun hcontra => absurd hcontra.symm (ne_of_lt hlt)
        · intro t ht
          rcases List.mem_cons.mp ht with rfl | htr
          · exact le_of_lt hlt
          · exact hmin t htr
        · cases hmd : md0 with
          | none => simp [distImproves]
          | some d0 =>
            rw [hmd] at h1
            simp only [distImproves, decide_eq_true_eq] at h1 ⊢
            exact lt_trans hlt h1
        · rw [nearestGo, if_pos h1]
          exact heq
      · push_neg at h2
        have h2' : ∀ t ∈ rest, distImproves (some (distWith w seg)) (distWith w t) = false :=
          fun t ht => Bool.not_eq_true _ ▸ h2 t ht
        refine ⟨seg, ?_, ?_, h1, ?_⟩
        · rw [List.find?_cons_of_pos]
          simp
        · intro t ht
          rcases List.mem_cons.mp ht with rfl | htr
          · exact le_refl _
          · have := h2 t htr
            simp only [distImproves, decide_eq_true_eq] at this
            simpa using not_lt.mp (fun hcontra => this (by simpa using hcontra))
        · rw [nearestGo, if_pos h1]
          exact nearestGo_no_improve w rest (some seg.speaker) (some (distWith w seg)) h2'
    · have hmd : ∃ d0, md0 = some d0 ∧ ¬distWith w seg < d0 := by
        cases hmd0 : md0 with
        | none => rw [hmd0] at h1; simp [distImproves] at h1
        | some d0 =>
          rw [hmd0] at h1
          simp only [distImproves, decide_eq_true_eq] at h1
          exact ⟨d0, rfl, h1⟩
      obtain ⟨d0, hd0, hge⟩ := hmd
      have h2 : ∃ t ∈ rest, distImproves md0 (distWith w t) = true := by
        obtain ⟨t, ht, himp⟩ := h
        rcases List.mem_cons.mp ht with rfl | htr
        · exact absurd himp h1
        · exact ⟨t, htr, himp⟩
      obtain ⟨seg', hfind, hmin, himp, heq⟩ := ih ns0 md0 h2
      have hlt : distWith w seg' < d0 := by
        rw [hd0] at himp
        simpa [distImproves] using himp
      refine ⟨seg', ?_, ?_, himp, ?_⟩
      · rw [List.find?_cons_of_neg, hfind]
        simp only [decide_eq_true_eq]
        intro hcontra
        rw [hcontra] at hge
        exact hge hlt
      · intro t ht
        rcases List.mem_cons.mp ht with rfl | htr
        · exact le_of_lt (lt_of_lt_of_le hlt (not_lt.mp hge))
        · exact hmin t htr
      · rw [nearestGo, if_neg h1]
        exact heq

/-- C6 (amended): for a word with `end > start`, the pre-interpolation
speaker is: the speaker of the earliest-listed segment with the largest
positive overlap; else, when every overlap is zero, the speaker of the
earliest-listed nearest segment provided its distance is ≤ τ *and its label
is non-empty* (Python truthiness treats the empty label as absent); and
`UNKNOWN` otherwise. -/
theorem labelSpeaker_spec (w : Word) (segs : List DiarSegment) (τ : ℚ)
    (_hw : w.start < w.«end») :
    ((∃ s ∈ segs, 0 < overlapWith w s) →
      ∃ seg, isFirstBestOverlap w segs seg ∧ labelSpeaker w segs τ = seg.speaker)
    ∧ ((∀ s ∈ segs, overlapWith w s = 0) →
      (segs = [] → labelSpeaker w segs τ = "UNKNOWN")
      ∧ (segs ≠ [] → ∃ seg, isFirstNearest w segs seg ∧
          labelSpeaker w segs τ =
            if seg.speaker ≠ "" ∧ distWith w seg ≤ τ then seg.speaker else "UNKNOWN")) := by
  have hst : scanSegs w segs =
      ⟨(bestGo w ("UNKNOWN", 0) segs).1, (bestGo w ("UNKNOWN", 0) segs).2,
       (nearestGo w (none, none) segs).1, (nearestGo w (none, none) segs).2⟩ :=
    scanSegs_proj w segs ⟨"UNKNOWN", 0, none, none⟩
  constructor
  · intro hov
    obtain ⟨s0, hs0, hpos⟩ := hov
    obtain ⟨seg, hfind, hmax, hgt, heq⟩ := bestGo_improve w segs "UNKNOWN" 0 ⟨s0, hs0, hpos⟩
    refine ⟨seg, ⟨hfind, hmax, hgt⟩, ?_⟩
    unfold labelSpeaker
    rw [hst, heq]
    rcases hne : nearestGo w (none, none) segs with ⟨ns, md⟩
    cases ns with
    | none => rfl
    | some nsv =>
      cases md with
      | none => rfl
      | some mdv =>
        simp only
        rw [if_neg]
        rintro ⟨hzero, -, -⟩
        rw [hzero] at hgt
        exact lt_irrefl 0 hgt
  · intro hz
    have hno : bestGo w ("UNKNOWN", 0) segs = ("UNKNOWN", 0) :=
      bestGo_no_improve w segs _ _ (fun s hs => le_of_eq (hz s hs))
    constructor
    · rintro rfl
      rfl
    · intro hne
      obtain ⟨seg0, hseg0⟩ := List.exists_mem_of_ne_nil segs hne
      obtain ⟨seg, hfind, hmin, -, heq⟩ := nearestGo_improve w segs none none
        ⟨seg0, hseg0, by simp [distImproves]⟩
      refine ⟨seg, ⟨hfind, hmin⟩, ?_⟩
      unfold labelSpeaker
      rw [hst, heq, hno]
      simp only
      by_cases hc : seg.speaker ≠ "" ∧ distWith w seg ≤ τ
      · rw [if_pos ⟨by trivial, hc.1, hc.2⟩, if_pos hc]
      · rw [if_neg, if_neg hc]
        rintro ⟨-, h1, h2⟩
        exact hc ⟨h1, h2⟩

/-- Witness for C6 (amended) at a concrete input. -/
theorem labelSpeaker_spec_witness :
    ((0 : ℚ) < 1) ∧
    (((∃ s ∈ [DiarSegment.mk 2 3 "A"], 0 < overlapWith ⟨"w", 0, 1⟩ s) →
      ∃ seg, isFirstBestOverlap ⟨"w", 0, 1⟩ [DiarSegment.mk 2 3 "A"] seg ∧
        labelSpeaker ⟨"w", 0, 1⟩ [DiarSegment.mk 2 3 "A"] 2 = seg.speaker)
    ∧ ((∀ s ∈ [DiarSegment.mk 2 3 "A"], overlapWith ⟨"w", 0, 1⟩ s = 0) →
      (([DiarSegment.mk 2 3 "A"] : List DiarSegment) = [] →
        labelSpeaker ⟨"w", 0, 1⟩ [DiarSegment.mk 2 3 "A"] 2 = "UNKNOWN")
      ∧ (([DiarSegment.mk 2 3 "A"] : List DiarSegment) ≠ [] →
        ∃ seg, isFirstNearest ⟨"w", 0, 1⟩ [DiarSegment.mk 2 3 "A"] seg ∧
          labelSpeaker ⟨"w", 0, 1⟩ [DiarSegment.mk 2 3 "A"] 2 =
            if seg.speaker ≠ "" ∧ distWith ⟨"w", 0, 1⟩ seg ≤ 2 then seg.speaker
            else "UNKNOWN"))) :=
  ⟨by norm_num, labelSpeaker_spec ⟨"w", 0, 1⟩ [DiarSegment.mk 2 3 "A"] 2 (by norm_num)⟩

/-- C6 counterexample: a nearest segment within tolerance whose speaker label
is the empty string.  The claim as stated assigns that label; the code's
truthiness test rejects it and assigns `UNKNOWN`. -/
theorem labelSpeaker_empty_label_unknown :
    (0 : ℚ) < 1
    ∧ overlapWith ⟨"w", 0, 1⟩ ⟨6/5, 2, ""⟩ = 0
    ∧ isFirstNearest ⟨"w", 0, 1⟩ [⟨6/5, 2, ""⟩] ⟨6/5, 2, ""⟩
    ∧ distWith ⟨"w", 0, 1⟩ ⟨6/5, 2, ""⟩ ≤ 3/4
    ∧ labelSpeaker ⟨"w", 0, 1⟩ [⟨6/5, 2, ""⟩] (3/4) = "UNKNOWN"
    ∧ ("UNKNOWN" : String) ≠ "" := by
  refine ⟨by norm_num, by norm_num [overlapWith], ⟨?_, ?_⟩, ?_, ?_, by decide⟩
  · simp [List.find?]
  · intro t ht
    simp only [List.mem_singleton] at ht
    rw [ht]
  · norm_num [distWith]
  · norm_num [labelSpeaker, scanSegs, scanStep, overlapWith, distWith]

/-! ## Forward-pass characterisation (C4, C10) -/

theorem nextKnownBetween_congr :
    ∀ (n stop j : ℕ) (res ws : List LabelledWord),
      stop - j = n →
      (∀ k, j ≤ k → res[k]? = ws[k]?) →
      nextKnownBetween res j stop = nextKnownBetween ws j stop := by
  intro n
  induction n with
  | zero =>
    intro stop j res ws hn _
    have hj : ¬j < stop := by omega
    conv_lhs => rw [nextKnownBetween]
    conv_rhs => rw [nextKnownBetween]
    simp [dif_neg hj]
  | succ m ih =>
    intro stop j res ws hn hagree
    have hj : j < stop := by omega
    conv_lhs => rw [nextKnownBetween]
    conv_rhs => rw [nextKnownBetween]
    simp only [dif_pos hj]
    rw [hagree j (le_refl j)]
    cases hws : ws[j]? with
    | none => rfl
    | some w =>
      by_cases hsp : w.speaker ≠ "UNKNOWN"
      · simp [hsp]
      · simp only [hsp, if_false]
        exact ih stop (j + 1) res ws (by omega) (fun k hk => hagree k (by omega))

theorem fwdGo_length :
    ∀ (n : ℕ) (res : List LabelledWord) (i : ℕ) (lk : Option String),
      res.length - i = n → (fwdGo res i lk).length = res.length := by
  intro n
  induction n with
  | zero =>
    intro res i lk hn
    have hi : ¬i < res.length := by omega
    rw [fwdGo]
    simp [dif_neg hi]
  | succ m ih =>
    intro res i lk hn
    have hi : i < res.length := by omega
    rw [fwdGo]
    simp only [dif_pos hi]
    by_cases hsp : (res.get ⟨i, hi⟩).speaker ≠ "UNKNOWN"
    · simp only [if_pos hsp]
      exact ih res (i + 1) _ (by omega)
    · simp only [if_neg hsp]
      cases lk with
      | none => exact ih res (i + 1) none (by omega)
      | some lkv =>
        by_cases hnk : nextKnownBetween res (i + 1) (min (i + 10) res.length) = none ∨
            nextKnownBetween res (i + 1) (min (i + 10) res.length) = some lkv
        · simp only [if_pos hnk]
          rw [ih _ (i + 1) _ (by simp [List.length_set]; omega), List.length_set]
        · simp only [if_neg hnk]
          exact ih res (i + 1) _ (by omega)

theorem fwdGo_getElem :
    ∀ (n : ℕ) (ws res : List LabelledWord) (i : ℕ),
      res.length = ws.length →
      (∀ j, i ≤ j → res[j]? = ws[j]?) →
      res.length - i = n →
      ∀ k, (fwdGo res i (lastKnownBefore ws i))[k]? =
        if k < i then res[k]? else (ws[k]?).map (fwdWord ws k) := by
  intro n
  induction n with
  | zero =>
    intro ws res i hlen hagree hn k
    have hi : ¬i < res.length := by omega
    rw [fwdGo]
    simp only [dif_neg hi]
    by_cases hk : k < i
    · simp [hk]
    · have hk1 : res.length ≤ k := by omega
      have hk2 : ws.length ≤ k := by omega
      simp [if_neg hk, List.getElem?_eq_none hk1, List.getElem?_eq_none hk2]
  | succ m ih =>
    intro ws res i hlen hagree hn k
    have hi : i < res.length := by omega
    have hiw : i < ws.length := by omega
    have hword : res.get ⟨i, hi⟩ = ws.get ⟨i, hiw⟩ := by
      have := hagree i (le_refl i)
      rw [List.getElem?_eq_getElem hi, List.getElem?_eq_getElem hiw] at this
      simpa using this
    have hwsi : ws[i]? = some (ws.get ⟨i, hiw⟩) := List.getElem?_eq_getElem hiw
    rw [fwdGo]
    simp only [dif_pos hi]
    by_cases hsp : (res.get ⟨i, hi⟩).speaker ≠ "UNKNOWN"
    · simp only [if_pos hsp]
      have hlkb : lastKnownBefore ws (i + 1) = some (res.get ⟨i, hi⟩).speaker := by
        have hspw : (ws.get ⟨i, hiw⟩).speaker ≠ "UNKNOWN" := hword ▸ hsp
        rw [lastKnownBefore, hwsi]
        show (if (ws.get ⟨i, hiw⟩).speaker ≠ "UNKNOWN" then some (ws.get ⟨i, hiw⟩).speaker
          else lastKnownBefore ws i) = some (res.get ⟨i, hi⟩).speaker
        rw [if_pos hspw, hword]
      have := ih ws res (i + 1) hlen (fun j hj => hagree j (by omega)) (by omega) k
      rw [hlkb] at this
      rw [this]
      by_cases hk : k < i
      · rw [if_pos (by omega : k < i + 1), if_pos hk]
      · by_cases hki : k = i
        · subst hki
          rw [if_pos (by omega : k < k + 1), if_neg (by omega : ¬k < k)]
          rw [hagree k (le_refl k), hwsi]
          have hfw : fwdWord ws k (ws.get ⟨k, hiw⟩) = ws.get ⟨k, hiw⟩ := by
            rw [fwdWord, if_pos (hword ▸ hsp)]
          exact congrArg some hfw.symm
        · rw [if_neg (by omega : ¬k < i + 1), if_neg hk]
    · simp only [if_neg hsp]
      have hspw : ¬(ws.get ⟨i, hiw⟩).speaker ≠ "UNKNOWN" := hword ▸ hsp
      have hlkb : lastKnownBefore ws (i + 1) = lastKnownBefore ws i := by
        rw [lastKnownBefore, hwsi]
        show (if (ws.get ⟨i, hiw⟩).speaker ≠ "UNKNOWN" then some (ws.get ⟨i, hiw⟩).speaker
          else lastKnownBefore ws i) = lastKnownBefore ws i
        rw [if_neg hspw]
      cases hlk : lastKnownBefore ws i with
      | none =>
        have := ih ws res (i + 1) hlen (fun j hj => hagree j (by omega)) (by omega) k
        rw [hlkb, hlk] at this
        rw [this]
        by_cases hk : k < i
        · rw [if_pos (by omega : k < i + 1), if_pos hk]
        · by_cases hki : k = i
          · subst hki
            rw [if_pos (by omega : k < k + 1), if_neg (by omega : ¬k < k)]
            rw [hagree k (le_refl k), hwsi]
            have hfw : fwdWord ws k (ws.get ⟨k, hiw⟩) = ws.get ⟨k, hiw⟩ := by
              rw [fwdWord, if_neg hspw, hlk]
            exact congrArg some hfw.symm
          · rw [if_neg (by omega : ¬k < i + 1), if_neg hk]
      | some lkv =>
        have hnkeq : nextKnownBetween res (i + 1) (min (i + 10) res.length) =
            nextKnownBetween ws (i + 1) (min (i + 10) ws.length) := by
          rw [hlen]
          exact nextKnownBetween_congr (min (i + 10) ws.length - (i + 1)) _ _ res ws rfl
            (fun j hj => hagree j (by omega))
        by_cases hnk : nextKnownBetween res (i + 1) (min (i + 10) res.length) = none ∨
            nextKnownBetween res (i + 1) (min (i + 10) res.length) = some lkv
        · simp only [if_pos hnk]
          have hset_len : (res.set i ⟨(res.get ⟨i, hi⟩).text, (res.get ⟨i, hi⟩).start,
              (res.get ⟨i, hi⟩).«end», lkv⟩).length = ws.length := by
            rw [List.length_set, hlen]
          have hset_agree : ∀ j, i + 1 ≤ j →
              (res.set i ⟨(res.get ⟨i, hi⟩).text, (res.get ⟨i, hi⟩).start,
                (res.get ⟨i, hi⟩).«end», lkv⟩)[j]? = ws[j]? := by
            intro j hj
            rw [List.getElem?_set_ne (by omega : i ≠ j)]
            exact hagree j (by omega)
          have := ih ws _ (i + 1) hset_len hset_agree (by simp [List.length_set]; omega) k
          rw [hlkb, hlk] at this
          rw [this]
          by_cases hk : k < i
          · rw [if_pos (by omega : k < i + 1), if_pos hk,
              List.getElem?_set_ne (by omega : i ≠ k)]
          · by_cases hki : k = i
            · subst hki
              rw [if_pos (by omega : k < k + 1), if_neg (by omega : ¬k < k)]
              rw [List.getElem?_set_self hi, hwsi]
              have hfw : fwdWord ws k (ws.get ⟨k, hiw⟩) =
                  ⟨(res.get ⟨k, hi⟩).text, (res.get ⟨k, hi⟩).start,
                   (res.get ⟨k, hi⟩).«end», lkv⟩ := by
                rw [fwdWord, if_neg hspw, hlk]
                rw [← hnkeq]
                simp only [if_pos hnk]
                rw [hword]
              exact congrArg some hfw.symm
            · rw [if_neg (by omega : ¬k < i + 1), if_neg hk]
        · simp only [if_neg hnk]
          have := ih ws res (i + 1) hlen (fun j hj => hagree j (by omega)) (by omega) k
          rw [hlkb, hlk] at this
          rw [this]
          by_cases hk : k < i
          · rw [if_pos (by omega : k < i + 1), if_pos hk]
          · by_cases hki : k = i
            · subst hki
              rw [if_pos (by omega : k < k + 1), if_neg (by omega : ¬k < k)]
              rw [hagree k (le_refl k), hwsi]
              have hfw : fwdWord ws k (ws.get ⟨k, hiw⟩) = ws.get ⟨k, hiw⟩ := by
                rw [fwdWord, if_neg hspw, hlk]
                rw [← hnkeq]
                simp only [if_neg hnk]
              exact congrArg some hfw.symm
            · rw [if_neg (by omega : ¬k < i + 1), if_neg hk]

/-- The forward pass, characterised pointwise on the original list. -/
theorem fwdGo_spec (ws : List LabelledWord) (k : ℕ) :
    (fwdGo ws 0 none)[k]? = (ws[k]?).map (fwdWord ws k) := by
  have := fwdGo_getElem ws.length ws ws 0 rfl (fun j _ => rfl) rfl k
  rw [show lastKnownBefore ws 0 = none from rfl] at this
  simpa using this

/-- C4 (amended): in the forward pass, a word at index `i` labelled UNKNOWN
with a preceding known speaker `lk` adopts `lk` exactly when the look-ahead
over the next *nine* positions (`range(i+1, min(i+10, len))`, upper bound
exclusive) finds no known speaker or finds one equal to `lk`. -/
theorem fwd_pass_adoption (ws : List LabelledWord) (i : ℕ) (lk : String)
    (h : i < ws.length) (hU : (ws.get ⟨i, h⟩).speaker = "UNKNOWN")
    (hlk : lastKnownBefore ws i = some lk) :
    (fwdGo ws 0 none)[i]? = some (
      if nextKnownBetween ws (i + 1) (min (i + 10) ws.length) = none
          ∨ nextKnownBetween ws (i + 1) (min (i + 10) ws.length) = some lk
      then ⟨(ws.get ⟨i, h⟩).text, (ws.get ⟨i, h⟩).start, (ws.get ⟨i, h⟩).«end», lk⟩
      else ws.get ⟨i, h⟩) := by
  rw [fwdGo_spec, List.getElem?_eq_getElem h]
  show some (fwdWord ws i (ws.get ⟨i, h⟩)) = _
  congr 1
  rw [fwdWord, if_neg (fun hne => hne hU), hlk]

/-- Witness for C4 (amended) at a concrete input: the UNKNOWN word at index 1
has last known speaker `"A"`, the look-ahead window is empty, and the word
adopts `"A"`. -/
theorem fwd_pass_adoption_witness :
    ((([⟨"a", 0, 1, "A"⟩, ⟨"b", 1, 2, "UNKNOWN"⟩] : List LabelledWord).get
        ⟨1, by decide⟩).speaker = "UNKNOWN"
      ∧ lastKnownBefore [⟨"a", 0, 1, "A"⟩, ⟨"b", 1, 2, "UNKNOWN"⟩] 1 = some "A") ∧
    (fwdGo [⟨"a", 0, 1, "A"⟩, ⟨"b", 1, 2, "UNKNOWN"⟩] 0 none)[1]? = some (
      if nextKnownBetween [⟨"a", 0, 1, "A"⟩, ⟨"b", 1, 2, "UNKNOWN"⟩] (1 + 1)
          (min (1 + 10) ([⟨"a", 0, 1, "A"⟩, ⟨"b", 1, 2, "UNKNOWN"⟩] : List LabelledWord).length)
          = none
        ∨ nextKnownBetween [⟨"a", 0, 1, "A"⟩, ⟨"b", 1, 2, "UNKNOWN"⟩] (1 + 1)
          (min (1 + 10) ([⟨"a", 0, 1, "A"⟩, ⟨"b", 1, 2, "UNKNOWN"⟩] : List LabelledWord).length)
          = some "A"
      then ⟨(([⟨"a", 0, 1, "A"⟩, ⟨"b", 1, 2, "UNKNOWN"⟩] : List LabelledWord).get
          ⟨1, by decide⟩).text,
        (([⟨"a", 0, 1, "A"⟩, ⟨"b", 1, 2, "UNKNOWN"⟩] : List LabelledWord).get
          ⟨1, by decide⟩).start,
        (([⟨"a", 0, 1, "A"⟩, ⟨"b", 1, 2, "UNKNOWN"⟩] : List LabelledWord).get
          ⟨1, by decide⟩).«end», "A"⟩
      else ([⟨"a", 0, 1, "A"⟩, ⟨"b", 1, 2, "UNKNOWN"⟩] : List LabelledWord).get
          ⟨1, by decide⟩) :=
  ⟨⟨by decide, by decide⟩,
    fwd_pass_adoption [⟨"a", 0, 1, "A"⟩, ⟨"b", 1, 2, "UNKNOWN"⟩] 1 "A" (by decide)
      (by decide) (by decide)⟩

/-- C4 counterexample: with ten UNKNOWN words after a known `"A"` and a
different known `"B"` eleven positions on, the next known speaker within ten
look-ahead positions of index 1 is `"B" ≠ "A"`, yet the forward pass adopts
`"A"` at index 1 — the code's window is `range(i+1, min(i+10, len))`, nine
positions, not ten. -/
theorem fwd_pass_lookahead_counterexample :
    lastKnownBefore
      [⟨"x", 0, 1, "A"⟩, ⟨"x", 0, 1, "UNKNOWN"⟩, ⟨"x", 0, 1, "UNKNOWN"⟩,
       ⟨"x", 0, 1, "UNKNOWN"⟩, ⟨"x", 0, 1, "UNKNOWN"⟩, ⟨"x", 0, 1, "UNKNOWN"⟩,
       ⟨"x", 0, 1, "UNKNOWN"⟩, ⟨"x", 0, 1, "UNKNOWN"⟩, ⟨"x", 0, 1, "UNKNOWN"⟩,
       ⟨"x", 0, 1, "UNKNOWN"⟩, ⟨"x", 0, 1, "UNKNOWN"⟩, ⟨"x", 0, 1, "B"⟩] 1 = some "A"
    ∧ nextKnownBetween
      [⟨"x", 0, 1, "A"⟩, ⟨"x", 0, 1, "UNKNOWN"⟩, ⟨"x", 0, 1, "UNKNOWN"⟩,
       ⟨"x", 0, 1, "UNKNOWN"⟩, ⟨"x", 0, 1, "UNKNOWN"⟩, ⟨"x", 0, 1, "UNKNOWN"⟩,
       ⟨"x", 0, 1, "UNKNOWN"⟩, ⟨"x", 0, 1, "UNKNOWN"⟩, ⟨"x", 0, 1, "UNKNOWN"⟩,
       ⟨"x", 0, 1, "UNKNOWN"⟩, ⟨"x", 0, 1, "UNKNOWN"⟩, ⟨"x", 0, 1, "B"⟩]
      (1 + 1) (1 + 1 + 10) = some "B"
    ∧ ("B" : String) ≠ "A"
    ∧ ((fwdGo
      [⟨"x", 0, 1, "A"⟩, ⟨"x", 0, 1, "UNKNOWN"⟩, ⟨"x", 0, 1, "UNKNOWN"⟩,
       ⟨"x", 0, 1, "UNKNOWN"⟩, ⟨"x", 0, 1, "UNKNOWN"⟩, ⟨"x", 0, 1, "UNKNOWN"⟩,
       ⟨"x", 0, 1, "UNKNOWN"⟩, ⟨"x", 0, 1, "UNKNOWN"⟩, ⟨"x", 0, 1, "UNKNOWN"⟩,
       ⟨"x", 0, 1, "UNKNOWN"⟩, ⟨"x", 0, 1, "UNKNOWN"⟩, ⟨"x", 0, 1, "B"⟩] 0 none)[1]?).map
      LabelledWord.speaker = some "A" := by
  refine ⟨by decide, ?_, by decide, ?_⟩
  · rw [nextKnownBetween]
    simp only [dif_pos (by omega : 1 + 1 < 1 + 1 + 10)]
    rw [nextKnownBetween]
    simp only [dif_pos (by omega : 3 < 1 + 1 + 10)]
    rw [nextKnownBetween]
    simp only [dif_pos (by omega : 4 < 1 + 1 + 10)]
    rw [nextKnownBetween]
    simp only [dif_pos (by omega : 5 < 1 + 1 + 10)]
    rw [nextKnownBetween]
    simp only [dif_pos (by omega : 6 < 1 + 1 + 10)]
    rw [nextKnownBetween]
    simp only [dif_pos (by omega : 7 < 1 + 1 + 10)]
    rw [nextKnownBetween]
    simp only [dif_pos (by omega : 8 < 1 + 1 + 10)]
    rw [nextKnownBetween]
    simp only [dif_pos (by omega : 9 < 1 + 1 + 10)]
    rw [nextKnownBetween]
    simp only [dif_pos (by omega : 10 < 1 + 1 + 10)]
    rw [nextKnownBetween]
    simp only [dif_pos (by omega : 11 < 1 + 1 + 10)]
    decide
  · rw [fwdGo_spec]
    have hnk : nextKnownBetween
        [⟨"x", 0, 1, "A"⟩, ⟨"x", 0, 1, "UNKNOWN"⟩, ⟨"x", 0, 1, "UNKNOWN"⟩,
         ⟨"x", 0, 1, "UNKNOWN"⟩, ⟨"x", 0, 1, "UNKNOWN"⟩, ⟨"x", 0, 1, "UNKNOWN"⟩,
         ⟨"x", 0, 1, "UNKNOWN"⟩, ⟨"x", 0, 1, "UNKNOWN"⟩, ⟨"x", 0, 1, "UNKNOWN"⟩,
         ⟨"x", 0, 1, "UNKNOWN"⟩, ⟨"x", 0, 1, "UNKNOWN"⟩, ⟨"x", 0, 1, "B"⟩]
        (1 + 1) (min (1 + 10) 12) = none := by
      rw [nextKnownBetween]
      simp only [dif_pos (by omega : 1 + 1 < min (1 + 10) 12)]
      rw [nextKnownBetween]
      simp only [dif_pos (by omega : 3 < min (1 + 10) 12)]
      rw [nextKnownBetween]
      simp only [dif_pos (by omega : 4 < min (1 + 10) 12)]
      rw [nextKnownBetween]
      simp only [dif_pos (by omega : 5 < min (1 + 10) 12)]
      rw [nextKnownBetween]
      simp only [dif_pos (by omega : 6 < min (1 + 10) 12)]
      rw [nextKnownBetween]
      simp only [dif_pos (by omega : 7 < min (1 + 10) 12)]
      rw [nextKnownBetween]
      simp only [dif_pos (by omega : 8 < min (1 + 10) 12)]
      rw [nextKnownBetween]
      simp only [dif_pos (by omega : 9 < min (1 + 10) 12)]
      rw [nextKnownBetween]
      simp only [dif_pos (by omega : 10 < min (1 + 10) 12)]
      rw [nextKnownBetween]
      simp only [dif_neg (by omega : ¬11 < min (1 + 10) 12)]
      decide
    have hfw : fwdWord
        [⟨"x", 0, 1, "A"⟩, ⟨"x", 0, 1, "UNKNOWN"⟩, ⟨"x", 0, 1, "UNKNOWN"⟩,
         ⟨"x", 0, 1, "UNKNOWN"⟩, ⟨"x", 0, 1, "UNKNOWN"⟩, ⟨"x", 0, 1, "UNKNOWN"⟩,
         ⟨"x", 0, 1, "UNKNOWN"⟩, ⟨"x", 0, 1, "UNKNOWN"⟩, ⟨"x", 0, 1, "UNKNOWN"⟩,
         ⟨"x", 0, 1, "UNKNOWN"⟩, ⟨"x", 0, 1, "UNKNOWN"⟩, ⟨"x", 0, 1, "B"⟩] 1
        ⟨"x", 0, 1, "UNKNOWN"⟩ = ⟨"x", 0, 1, "A"⟩ := by
      rw [fwdWord, if_neg (fun hne => hne rfl),
        show lastKnownBefore
          [⟨"x", 0, 1, "A"⟩, ⟨"x", 0, 1, "UNKNOWN"⟩, ⟨"x", 0, 1, "UNKNOWN"⟩,
           ⟨"x", 0, 1, "UNKNOWN"⟩, ⟨"x", 0, 1, "UNKNOWN"⟩, ⟨"x", 0, 1, "UNKNOWN"⟩,
           ⟨"x", 0, 1, "UNKNOWN"⟩, ⟨"x", 0, 1, "UNKNOWN"⟩, ⟨"x", 0, 1, "UNKNOWN"⟩,
           ⟨"x", 0, 1, "UNKNOWN"⟩, ⟨"x", 0, 1, "UNKNOWN"⟩, ⟨"x", 0, 1, "B"⟩] 1 = some "A"
          from by decide]
      simp only [show ([⟨"x", 0, 1, "A"⟩, ⟨"x", 0, 1, "UNKNOWN"⟩, ⟨"x", 0, 1, "UNKNOWN"⟩,
           ⟨"x", 0, 1, "UNKNOWN"⟩, ⟨"x", 0, 1, "UNKNOWN"⟩, ⟨"x", 0, 1, "UNKNOWN"⟩,
           ⟨"x", 0, 1, "UNKNOWN"⟩, ⟨"x", 0, 1, "UNKNOWN"⟩, ⟨"x", 0, 1, "UNKNOWN"⟩,
           ⟨"x", 0, 1, "UNKNOWN"⟩, ⟨"x", 0, 1, "UNKNOWN"⟩,
           ⟨"x", 0, 1, "B"⟩] : List LabelledWord).length = 12 from rfl, hnk]
      simp
    rw [show ([⟨"x", 0, 1, "A"⟩, ⟨"x", 0, 1, "UNKNOWN"⟩, ⟨"x", 0, 1, "UNKNOWN"⟩,
         ⟨"x", 0, 1, "UNKNOWN"⟩, ⟨"x", 0, 1, "UNKNOWN"⟩, ⟨"x", 0, 1, "UNKNOWN"⟩,
         ⟨"x", 0, 1, "UNKNOWN"⟩, ⟨"x", 0, 1, "UNKNOWN"⟩, ⟨"x", 0, 1, "UNKNOWN"⟩,
         ⟨"x", 0, 1, "UNKNOWN"⟩, ⟨"x", 0, 1, "UNKNOWN"⟩,
         ⟨"x", 0, 1, "B"⟩] : List LabelledWord)[1]? = some ⟨"x", 0, 1, "UNKNOWN"⟩
      from rfl]
    rw [show Option.map (fwdWord
        [⟨"x", 0, 1, "A"⟩, ⟨"x", 0, 1, "UNKNOWN"⟩, ⟨"x", 0, 1, "UNKNOWN"⟩,
         ⟨"x", 0, 1, "UNKNOWN"⟩, ⟨"x", 0, 1, "UNKNOWN"⟩, ⟨"x", 0, 1, "UNKNOWN"⟩,
         ⟨"x", 0, 1, "UNKNOWN"⟩, ⟨"x", 0, 1, "UNKNOWN"⟩, ⟨"x", 0, 1, "UNKNOWN"⟩,
         ⟨"x", 0, 1, "UNKNOWN"⟩, ⟨"x", 0, 1, "UNKNOWN"⟩, ⟨"x", 0, 1, "B"⟩] 1)
        (some ⟨"x", 0, 1, "UNKNOWN"⟩) = some (fwdWord
        [⟨"x", 0, 1, "A"⟩, ⟨"x", 0, 1, "UNKNOWN"⟩, ⟨"x", 0, 1, "UNKNOWN"⟩,
         ⟨"x", 0, 1, "UNKNOWN"⟩, ⟨"x", 0, 1, "UNKNOWN"⟩, ⟨"x", 0, 1, "UNKNOWN"⟩,
         ⟨"x", 0, 1, "UNKNOWN"⟩, ⟨"x", 0, 1, "UNKNOWN"⟩, ⟨"x", 0, 1, "UNKNOWN"⟩,
         ⟨"x", 0, 1, "UNKNOWN"⟩, ⟨"x", 0, 1, "UNKNOWN"⟩, ⟨"x", 0, 1, "B"⟩] 1
        ⟨"x", 0, 1, "UNKNOWN"⟩) from rfl, hfw]
    rfl

/-! ## Frame properties of speaker assignment (C10) -/

theorem fwdWord_fields (ws : List LabelledWord) (i : ℕ) (w : LabelledWord) :
    (fwdWord ws i w).text = w.text ∧ (fwdWord ws i w).start = w.start
    ∧ (fwdWord ws i w).«end» = w.«end» := by
  rw [fwdWord]
  by_cases h1 : w.speaker ≠ "UNKNOWN"
  · simp [h1]
  · simp only [if_neg h1]
    cases hlk : lastKnownBefore ws i with
    | none => simp
    | some lk =>
      by_cases h2 : nextKnownBetween ws (i + 1) (min (i + 10) ws.length) = none ∨
          nextKnownBetween ws (i + 1) (min (i + 10) ws.length) = some lk
      · simp [h2]
      · simp [h2]

theorem fwdGo_map_proj (ws : List LabelledWord) :
    (fwdGo ws 0 none).map (fun lw => (lw.text, lw.start, lw.«end»)) =
      ws.map (fun lw => (lw.text, lw.start, lw.«end»)) := by
  apply List.ext_getElem?
  intro i
  rw [List.getElem?_map, List.getElem?_map, fwdGo_spec, Option.map_map]
  cases ws[i]? with
  | none => rfl
  | some w =>
    obtain ⟨h1, h2, h3⟩ := fwdWord_fields ws i w
    simp [Function.comp, h1, h2, h3]

theorem list_set_get_self (l : List LabelledWord) (i : ℕ) (h : i < l.length) :
    l.set i (l.get ⟨i, h⟩) = l := by
  apply List.ext_getElem?
  intro j
  by_cases hj : i = j
  · subst hj
    rw [List.getElem?_set_self h, List.getElem?_eq_getElem h]
    rfl
  · rw [List.getElem?_set_ne hj]

theorem bwdGo_map_proj :
    ∀ (i : ℕ) (res : List LabelledWord) (nk : Option String),
      (bwdGo res i nk).map (fun lw => (lw.text, lw.start, lw.«end»)) =
        res.map (fun lw => (lw.text, lw.start, lw.«end»)) := by
  intro i
  induction i with
  | zero => intro res nk; rfl
  | succ j ih =>
    intro res nk
    rw [bwdGo]
    by_cases hj : j < res.length
    · simp only [dif_pos hj]
      by_cases hsp : (res.get ⟨j, hj⟩).speaker ≠ "UNKNOWN"
      · simp only [if_pos hsp]
        exact ih res _
      · simp only [if_neg hsp]
        cases nk with
        | none => exact ih res none
        | some s =>
          rw [ih _ (some s)]
          apply List.ext_getElem?
          intro k
          rw [List.getElem?_map, List.getElem?_map]
          by_cases hk : j = k
          · subst hk
            rw [List.getElem?_set_self hj, List.getElem?_eq_getElem hj]
            rfl
          · rw [List.getElem?_set_ne hk]
    · simp only [dif_neg hj]
      exact ih res nk

theorem bwdGo_known :
    ∀ (i : ℕ) (res : List LabelledWord) (nk : Option String) (k : ℕ)
      (hk : k < res.length),
      (res.get ⟨k, hk⟩).speaker ≠ "UNKNOWN" → (bwdGo res i nk)[k]? = res[k]? := by
  intro i
  induction i with
  | zero => intro res nk k hk _; rfl
  | succ j ih =>
    intro res nk k hk hknown
    rw [bwdGo]
    by_cases hj : j < res.length
    · simp only [dif_pos hj]
      by_cases hsp : (res.get ⟨j, hj⟩).speaker ≠ "UNKNOWN"
      · simp only [if_pos hsp]
        exact ih res _ k hk hknown
      · simp only [if_neg hsp]
        cases nk with
        | none => exact ih res none k hk hknown
        | some s =>
          have hkj : k ≠ j := by
            intro hcontra
            subst hcontra
            exact hsp hknown
          have hset_len : k < (res.set j ⟨(res.get ⟨j, hj⟩).text, (res.get ⟨j, hj⟩).start,
              (res.get ⟨j, hj⟩).«end», s⟩).length := by
            rw [List.length_set]
            exact hk
          have hsame : (res.set j ⟨(res.get ⟨j, hj⟩).text, (res.get ⟨j, hj⟩).start,
              (res.get ⟨j, hj⟩).«end», s⟩)[k]? = res[k]? :=
            List.getElem?_set_ne (fun h => hkj h.symm)
          have hgetk : (res.set j ⟨(res.get ⟨j, hj⟩).text, (res.get ⟨j, hj⟩).start,
              (res.get ⟨j, hj⟩).«end», s⟩).get ⟨k, hset_len⟩ = res.get ⟨k, hk⟩ := by
            have h1 := hsame
            rw [List.getElem?_eq_getElem hset_len, List.getElem?_eq_getElem hk] at h1
            simpa using h1
          rw [ih _ (some s) k hset_len (by rw [hgetk]; exact hknown)]
          exact hsame
    · simp only [dif_neg hj]
      exact ih res nk k hk hknown

/-- C10: `assign_speakers_to_words` returns exactly the input words with
`end > start` (as a multiset of `(text, start, end)` triples), in
non-decreasing `start` order, with those fields unchanged; and the
interpolation passes never change a word whose speaker is not UNKNOWN. -/
theorem assign_speakers_frame (words : List Word) (segs : List DiarSegment) (τ : ℚ) :
    ((assign_speakers_to_words words segs τ).map
        (fun lw => (lw.text, lw.start, lw.«end»))).Perm
      ((words.filter (fun w => w.«end» > w.start)).map
        (fun w => (w.text, w.start, w.«end»)))
    ∧ List.Pairwise (fun a b : LabelledWord => a.start ≤ b.start)
        (assign_speakers_to_words words segs τ)
    ∧ ∀ (ws : List LabelledWord) (i : ℕ) (h : i < ws.length),
        (ws.get ⟨i, h⟩).speaker ≠ "UNKNOWN" →
        (interpolate_unknown_speakers ws)[i]? = some (ws.get ⟨i, h⟩) := by
  have hproj : ∀ ws : List LabelledWord,
      (interpolate_unknown_speakers ws).map (fun lw => (lw.text, lw.start, lw.«end»)) =
        ws.map (fun lw => (lw.text, lw.start, lw.«end»)) := by
    intro ws
    unfold interpolate_unknown_speakers
    rw [bwdGo_map_proj, fwdGo_map_proj]
  have hassign : assign_speakers_to_words words segs τ =
      interpolate_unknown_speakers (((words.mergeSort wordLe).filter
        (fun w => w.«end» > w.start)).map (fun w =>
          LabelledWord.mk w.text w.start w.«end» (labelSpeaker w segs τ))) := rfl
  have hmapproj : (assign_speakers_to_words words segs τ).map
      (fun lw => (lw.text, lw.start, lw.«end»)) =
      ((words.mergeSort wordLe).filter (fun w => w.«end» > w.start)).map
        (fun w => (w.text, w.start, w.«end»)) := by
    rw [hassign, hproj, List.map_map]
    rfl
  refine ⟨?_, ?_, ?_⟩
  · rw [hmapproj]
    exact (List.Perm.filter _ (List.mergeSort_perm words wordLe)).map _
  · have h1 : List.Pairwise (fun a b : Word => wordLe a b = true) (words.mergeSort wordLe) :=
      List.sorted_mergeSort
        (fun a b c hab hbc => by
          simp only [wordLe, decide_eq_true_eq] at *
          exact le_trans hab hbc)
        (fun a b => by
          simp only [wordLe, Bool.or_eq_true, decide_eq_true_eq]
          exact le_total a.start b.start)
        words
    have h2 : List.Pairwise (fun a b : Word => a.start ≤ b.start)
        ((words.mergeSort wordLe).filter (fun w => w.«end» > w.start)) := by
      refine List.Pairwise.sublist (List.filter_sublist _) (h1.imp ?_)
      intro a b hab
      simpa [wordLe] using hab
    have hstart : (assign_speakers_to_words words segs τ).map (fun lw => lw.start) =
        (((words.mergeSort wordLe).filter (fun w => w.«end» > w.start)).map
          (fun w => LabelledWord.mk w.text w.start w.«end» (labelSpeaker w segs τ))).map
          (fun lw => lw.start) := by
      have e1 : (assign_speakers_to_words words segs τ).map (fun lw => lw.start) =
          ((assign_speakers_to_words words segs τ).map
            (fun lw => (lw.text, lw.start, lw.«end»))).map (fun t => t.2.1) := by
        rw [List.map_map]
        rfl
      have e2 : (((words.mergeSort wordLe).filter (fun w => w.«end» > w.start)).map
          (fun w => LabelledWord.mk w.text w.start w.«end» (labelSpeaker w segs τ))).map
            (fun lw => lw.start) =
          ((((words.mergeSort wordLe).filter (fun w => w.«end» > w.start)).map
            (fun w => LabelledWord.mk w.text w.start w.«end» (labelSpeaker w segs τ))).map
              (fun lw => (lw.text, lw.start, lw.«end»))).map (fun t => t.2.1) := by
        simp only [List.map_map]
        rfl
      rw [e1, e2, hassign, hproj]
    have hgoal : List.Pairwise (fun a b : ℚ => a ≤ b)
        ((assign_speakers_to_words words segs τ).map (fun lw => lw.start)) := by
      rw [hstart, List.map_map]
      exact List.pairwise_map.mpr h2
    exact List.pairwise_map.mp hgoal
  · intro ws i h hknown
    show (bwdGo (fwdGo ws 0 none) (fwdGo ws 0 none).length none)[i]? = _
    have hflen : (fwdGo ws 0 none).length = ws.length :=
      fwdGo_length ws.length ws 0 none (by omega)
    have hfi : i < (fwdGo ws 0 none).length := by omega
    have hfwd : (fwdGo ws 0 none)[i]? = some (ws.get ⟨i, h⟩) := by
      rw [fwdGo_spec, List.getElem?_eq_getElem h]
      have hknown2 : ws[i].speaker ≠ "UNKNOWN" := hknown
      have hfw : fwdWord ws i ws[i] = ws[i] := by rw [fwdWord, if_pos hknown2]
      exact congrArg some hfw
    have hget : (fwdGo ws 0 none).get ⟨i, hfi⟩ = ws.get ⟨i, h⟩ := by
      have h1 := hfwd
      rw [List.getElem?_eq_getElem hfi] at h1
      simpa using h1
    rw [bwdGo_known (fwdGo ws 0 none).length (fwdGo ws 0 none) none i hfi
      (by rw [hget]; exact hknown)]
    exact hfwd

/-- Witness for C10 at a concrete input: the interpolation passes leave a
known-speaker word unchanged. -/
theorem assign_speakers_frame_witness :
    (([⟨"a", 0, 1, "A"⟩] : List LabelledWord).get ⟨0, by decide⟩).speaker ≠ "UNKNOWN"
    ∧ (interpolate_unknown_speakers [⟨"a", 0, 1, "A"⟩])[0]? =
        some (([⟨"a", 0, 1, "A"⟩] : List LabelledWord).get ⟨0, by decide⟩) :=
  ⟨by decide,
    (assign_speakers_frame [] [] 0).2.2 [⟨"a", 0, 1, "A"⟩] 0 (by decide) (by decide)⟩

/-- Witness for C1 at a concrete input. -/
theorem emitter_segment_t1_strict_monotone_witness :
    List.Chain' (fun a b : ℚ => a + 2/100 < b)
      ((0 : ℚ) :: segT1sFor "default"
        (runEmitter (TranscriptEmitter.init 5)
          [⟨⟨[⟨"A", 0, 3, "hi", []⟩], [], []⟩, 10, true, none⟩]).2)
    ∧ ∀ t1 ∈ segT1sFor "default"
        (runEmitter (TranscriptEmitter.init 5)
          [⟨⟨[⟨"A", 0, 3, "hi", []⟩], [], []⟩, 10, true, none⟩]).2,
        t1 ≤ (runEmitter (TranscriptEmitter.init 5)
          [⟨⟨[⟨"A", 0, 3, "hi", []⟩], [], []⟩, 10, true, none⟩]).1.last_emitted_t1_by_stream
          "default" :=
  emitter_segment_t1_strict_monotone 5
    [⟨⟨[⟨"A", 0, 3, "hi", []⟩], [], []⟩, 10, true, none⟩] "default"

/-- Witness for C9 at a concrete input. -/
theorem words_to_turns_partition_witness :
    ((words_to_turns [⟨"a", 0, 1, "A"⟩] (8/10) 60).map SpeakerTurn.words).flatten =
      [⟨"a", 0, 1, "A"⟩]
    ∧ ∀ turn ∈ words_to_turns [⟨"a", 0, 1, "A"⟩] (8/10) 60, turn.words ≠ [] :=
  words_to_turns_partition [⟨"a", 0, 1, "A"⟩] (8/10) 60

/-- Witness for C8 at a concrete input. -/
theorem emit_transcript_empty_turns_witness :
    (TranscriptEmitter.init 5).emit_transcript ⟨[], [], []⟩ 10 false none =
      (TranscriptEmitter.init 5, []) :=
  emit_transcript_empty_turns (TranscriptEmitter.init 5) [] [] 10 false none

/-- Witness for C7 (amended) at a concrete input. -/
theorem join_words_smart_props_witness :
    join_words_smart [⟨"a b", 0, 1, "A"⟩] =
      ⟨pyStrip (collapseSpaces (("a b" : String).data))⟩
    ∧ hasDoubleSpace (join_words_smart [⟨"a b", 0, 1, "A"⟩]).data = false :=
  join_words_smart_props ⟨"a b", 0, 1, "A"⟩ [⟨"a b", 0, 1, "A"⟩]

end Muesli